import Mathlib

/-!
Shallow embedding of the round-filling and session-assignment core of the
meta-manager-config repository (scripts/generate_formula1_metadata_sportsdb.py,
scripts/generate_isu_grand_prix_metadata_sportsdb.py, scripts/sportsdb.py).

Conventions of the embedding:
  - SportsDB events are records of the string fields the verified code reads;
    absent or JSON-null fields are `none`.  Python dict truthiness, restricted
    to these fields, is `eventTruthy` (a dict with none of the modelled fields
    is the falsy empty dict).
  - Calendar dates are proleptic-Gregorian ordinals (`Int`), exactly the order
    and day arithmetic of Python `datetime.date`; `datetime.utcnow().date()`
    is an explicit `today : Int` parameter.
  - Character classes (whitespace, digits, word characters) are modelled over
    ASCII, which covers every string the scripts and their feeds use.
  - The network is an oracle: a fill fetch is a function `Int -> List Event`,
    and the fill loop also counts how many times it calls the oracle.
-/

/-- Python `\s` restricted to ASCII: the whitespace accepted by `str.strip()`
and by the whitespace classes of the regexes the scripts compile. -/
def isPySpace (c : Char) : Bool :=
  c = ' ' || c = '\t' || c = '\n' || c = '\r' || c = '\x0b' || c = '\x0c'

/-- Character-wise `str.lower()` (ASCII). -/
def pyLower (s : String) : String :=
  String.mk (s.data.map Char.toLower)

/-- Python `str.strip()` with no argument on a char list. -/
def pyStripWs (l : List Char) : List Char :=
  ((l.dropWhile isPySpace).reverse.dropWhile isPySpace).reverse

/-- Python `str.strip()` with no argument. -/
def pyStripWsStr (s : String) : String :=
  String.mk (pyStripWs s.data)

/-- Python substring test `needle in hay` on char lists. -/
def strHasSub : List Char → List Char → Bool
  | n, [] => n.isEmpty
  | n, c :: t => n.isPrefixOf (c :: t) || strHasSub n t

/-- Digits of a decimal numeral to its value. -/
def digitsToNat (l : List Char) : Nat :=
  l.foldl (fun a c => a * 10 + (c.toNat - 48)) 0

/-- Python `int(s)` on a string: surrounding whitespace stripped, an optional
sign, then decimal digits (digit-group underscores are not modelled; no input
of this development uses them). `none` is `ValueError`. -/
def pyIntParse (s : String) : Option Int :=
  let t := ((s.data.dropWhile isPySpace).reverse.dropWhile isPySpace).reverse
  match t with
  | '-' :: ds => if !ds.isEmpty && ds.all Char.isDigit then some (-(digitsToNat ds : Int)) else none
  | '+' :: ds => if !ds.isEmpty && ds.all Char.isDigit then some ((digitsToNat ds : Int)) else none
  | ds => if !ds.isEmpty && ds.all Char.isDigit then some ((digitsToNat ds : Int)) else none

/-- Python truthiness of an optional string field: `None` and `""` are falsy. -/
def truthyStr : Option String → Option String
  | none => none
  | some s => if s = "" then none else some s

/-- Leap year of the proleptic Gregorian calendar (`calendar.isleap`). -/
def isLeapYear (y : Nat) : Bool :=
  y % 4 = 0 && (y % 100 ≠ 0 || y % 400 = 0)

/-- Days in a month, as `datetime.date` validates them. -/
def daysInMonth (y m : Nat) : Nat :=
  if m = 2 then (if isLeapYear y then 29 else 28)
  else if m = 4 || m = 6 || m = 9 || m = 11 then 30
  else 31

/-- Days in the months strictly before month `m` of year `y`. -/
def daysBeforeMonth (y : Nat) : Nat → Nat
  | 0 => 0
  | m + 1 => if m = 0 then 0 else daysBeforeMonth y m + daysInMonth y m

/-- `datetime.date(y, m, d).toordinal()`: days since 0000-12-31 of the
proleptic Gregorian calendar. -/
def ymdToOrdinal (y m d : Nat) : Int :=
  (365 * (y - 1) + (y - 1) / 4 - (y - 1) / 100 + (y - 1) / 400
    + daysBeforeMonth y m + d : Nat)

/-- Split on `-` keeping empty parts, as Python `str.split("-")`. -/
def splitOnDash : List Char → List (List Char)
  | [] => [[]]
  | '-' :: rest => [] :: splitOnDash rest
  | c :: rest =>
    match splitOnDash rest with
    | [] => [[c]]
    | p :: ps => (c :: p) :: ps

/-- `datetime.strptime(s, "%Y-%m-%d").date()`: exactly four year digits, one or
two month and day digits, each field in range and the day valid for the month
(CPython's `_strptime` patterns plus the `datetime` constructor checks).
`none` is `ValueError`. -/
def pyStrptimeYmd (s : String) : Option Int :=
  match (splitOnDash s.data).map String.mk with
  | [ys, ms, ds] =>
    let yl := ys.data
    let ml := ms.data
    let dl := ds.data
    if yl.length = 4 && yl.all Char.isDigit
        && (ml.length = 1 || ml.length = 2) && ml.all Char.isDigit
        && (dl.length = 1 || dl.length = 2) && dl.all Char.isDigit then
      let y := digitsToNat yl
      let m := digitsToNat ml
      let d := digitsToNat dl
      if 1 ≤ y && 1 ≤ m && m ≤ 12 && 1 ≤ d && d ≤ daysInMonth y m then
        some (ymdToOrdinal y m d)
      else none
    else none
  | _ => none

/-- `s.replace("Z", "+00:00")` as the scripts apply it to `strTimestamp`. -/
def pyReplaceZAux : List Char → List Char
  | [] => []
  | 'Z' :: rest => '+' :: '0' :: '0' :: ':' :: '0' :: '0' :: pyReplaceZAux rest
  | c :: rest => c :: pyReplaceZAux rest

/-- `s.replace("Z", "+00:00")`. -/
def pyReplaceZ (s : String) : String :=
  String.mk (pyReplaceZAux s.data)

/-- Consume two digits whose value is at most `maxv`, else fail. -/
def eatTwoDigits (maxv : Nat) : List Char → Option (List Char)
  | a :: b :: rest =>
    if a.isDigit && b.isDigit && (a.toNat - 48) * 10 + (b.toNat - 48) ≤ maxv
    then some rest else none
  | _ => none

/-- Consume a colon and then two bounded digits, else fail. -/
def eatColonTwo (maxv : Nat) : List Char → Option (List Char)
  | ':' :: rest => eatTwoDigits maxv rest
  | _ => none

/-- Consume a fractional part: a dot or comma then one or more digits. -/
def eatFrac : List Char → Option (List Char)
  | c :: rest =>
    if c = '.' || c = ',' then
      let ds := rest.takeWhile Char.isDigit
      if ds.isEmpty then none else some (rest.drop ds.length)
    else none
  | [] => none

/-- Consume `HH[:MM[:SS[.frac]]]` of an ISO time (hours at most 23, minutes
and seconds at most 59). -/
def isoClock (l : List Char) : Option (List Char) :=
  match eatTwoDigits 23 l with
  | none => none
  | some r1 =>
    match eatColonTwo 59 r1 with
    | none => some r1
    | some r2 =>
      match eatColonTwo 59 r2 with
      | none => some r2
      | some r3 =>
        match eatFrac r3 with
        | none => some r3
        | some r4 => some r4

/-- The time-of-day part of an ISO timestamp, with an optional signed offset,
must be consumed entirely. -/
def isoTimeOk (l : List Char) : Bool :=
  match isoClock l with
  | none => false
  | some [] => true
  | some (c :: rest) =>
    (c = '+' || c = '-')
      && (match isoClock rest with
          | some [] => true
          | _ => false)

/-- The calendar-date prefix `YYYY-MM-DD` of an ISO timestamp. -/
def isoYmd (l : List Char) : Option Int :=
  match l with
  | [y1, y2, y3, y4, s1, m1, m2, s2, d1, d2] =>
    if [y1, y2, y3, y4, m1, m2, d1, d2].all Char.isDigit && s1 = '-' && s2 = '-' then
      let y := digitsToNat [y1, y2, y3, y4]
      let m := digitsToNat [m1, m2]
      let d := digitsToNat [d1, d2]
      if 1 ≤ y && 1 ≤ m && m ≤ 12 && 1 ≤ d && d ≤ daysInMonth y m then
        some (ymdToOrdinal y m d)
      else none
    else none
  | _ => none

/-- `datetime.fromisoformat(s).date()`, modelled for the extended ISO format
the feed and the scripts use: a `YYYY-MM-DD` date, optionally followed by one
separator character, a time of day `HH[:MM[:SS[.frac]]]` and a signed offset.
`none` is `ValueError`. -/
def pyFromIsoDate (s : String) : Option Int :=
  let l := s.data
  match isoYmd (l.take 10) with
  | none => none
  | some d =>
    match l.drop 10 with
    | [] => some d
    | _sep :: timePart => if isoTimeOk timePart then some d else none

/-- A SportsDB event, restricted to the fields the verified core reads.
Absent or null JSON fields are `none`. -/
structure Event where
  intRound : Option String := none
  strRound : Option String := none
  strEvent : Option String := none
  strEventAlternate : Option String := none
  strFilename : Option String := none
  dateEvent : Option String := none
  dateEventLocal : Option String := none
  strTimestamp : Option String := none
  strDescriptionEN : Option String := none
  deriving DecidableEq, Repr

/-- The empty dict `{}` used by `build_metadata` as the event placeholder. -/
def emptyEvent : Event := {}

/-- Python truthiness of an event dict, over the modelled fields. -/
def eventTruthy (e : Event) : Bool :=
  !(e = emptyEvent : Bool)

/-- One parse attempt of `_date_from_event`: a truthy `dateEvent` or
`dateEventLocal` field run through `_to_date` (`strptime("%Y-%m-%d")`). -/
def parsedDateField (v : Option String) : Option Int :=
  match truthyStr v with
  | none => none
  | some s => pyStrptimeYmd s

/-- The `strTimestamp` attempt of `_date_from_event`: a truthy value, `Z`
replaced by `+00:00`, run through `datetime.fromisoformat(...).date()`. -/
def parsedTimestampField (v : Option String) : Option Int :=
  match truthyStr v with
  | none => none
  | some ts => pyFromIsoDate (pyReplaceZ ts)

/-- `_date_from_event` (identical in the Formula 1 and ISU scripts):
`dateEvent`, then `dateEventLocal`, then `strTimestamp`, then the current UTC
date, which is the explicit `today` parameter. -/
def _date_from_event (today : Int) (event : Event) : Int :=
  match parsedDateField event.dateEvent with
  | some d => d
  | none =>
    match parsedDateField event.dateEventLocal with
    | some d => d
    | none =>
      match parsedTimestampField event.strTimestamp with
      | some d => d
      | none => today

/-- `_fixture_sort_key` of the Formula 1 script: `(date, lowered strEvent)`. -/
def _fixture_sort_key (today : Int) (event : Event) : Int × String :=
  (_date_from_event today event, pyLower (event.strEvent.getD ""))

/-- A nondeterministic matcher over char lists: the list of possible
remainders after one regex fragment matches a prefix of the input. -/
abbrev Mch := List Char → List (List Char)

/-- Match a case-insensitive literal (the pattern given in lower case). -/
def litCI : List Char → List Char → Option (List Char)
  | [], s => some s
  | _ :: _, [] => none
  | p :: ps, c :: cs => if c.toLower = p then litCI ps cs else none

/-- Literal fragment of a case-insensitive regex. -/
def mchLit (w : String) : Mch := fun s =>
  match litCI w.data s with
  | some r => [r]
  | none => []

/-- Sequencing of regex fragments. -/
def mchSeq (a b : Mch) : Mch := fun s => (a s).flatMap b

/-- Alternation of regex fragments. -/
def mchAlt (ms : List Mch) : Mch := fun s => ms.flatMap (fun m => m s)

/-- Optional fragment `(?:...)?`. -/
def mchOpt (a : Mch) : Mch := fun s => s :: a s

/-- Remainders after consuming one or more whitespace characters. -/
def wsTails : List Char → List (List Char)
  | [] => []
  | c :: rest => if isPySpace c then rest :: wsTails rest else []

/-- `\s+`. -/
def mchWs1 : Mch := wsTails

/-- `\s*`. -/
def mchWs0 : Mch := fun s => s :: wsTails s

/-- Remainders after consuming one or more decimal digits. -/
def digitTails : List Char → List (List Char)
  | [] => []
  | c :: rest => if c.isDigit then rest :: digitTails rest else []

/-- `\d+`. -/
def mchDigits1 : Mch := digitTails

/-- Does the fragment match the whole input? -/
def mchFull (m : Mch) (s : List Char) : Bool :=
  (m s).any List.isEmpty

/-- The alternation inside `SESSION_SUFFIX_RE` of the Formula 1 script,
in source order. -/
def sessionSuffixAlt : Mch :=
  mchAlt [
    mchSeq (mchLit "free") (mchSeq mchWs1 (mchSeq (mchLit "practice") (mchSeq mchWs0 mchDigits1))),
    mchSeq (mchLit "practice") (mchSeq mchWs0 mchDigits1),
    mchSeq (mchLit "fp") mchDigits1,
    mchSeq (mchLit "driver") (mchSeq (mchOpt (mchLit "s"))
      (mchSeq mchWs1 (mchSeq (mchLit "press") (mchSeq mchWs1 (mchLit "conference"))))),
    mchSeq (mchLit "weekend") (mchSeq mchWs1 (mchSeq (mchLit "warm")
      (mchSeq mchWs0 (mchSeq (mchOpt (mchLit "-")) (mchSeq mchWs0 (mchLit "up")))))),
    mchSeq (mchLit "sprint") (mchSeq mchWs1 (mchLit "qualifying")),
    mchLit "sprint",
    mchLit "qualifying",
    mchSeq (mchLit "pre") (mchSeq mchWs1 (mchSeq (mchLit "qualifying") (mchSeq mchWs1 (mchLit "show")))),
    mchSeq (mchLit "post") (mchSeq mchWs1 (mchSeq (mchLit "qualifying") (mchSeq mchWs1 (mchLit "show")))),
    mchSeq (mchLit "pre") (mchSeq mchWs1 (mchSeq (mchLit "race") (mchSeq mchWs1 (mchLit "show")))),
    mchSeq (mchLit "post") (mchSeq mchWs1 (mchSeq (mchLit "race") (mchSeq mchWs1 (mchLit "show"))))]

/-- The alternation inside the one-shot sprint-suffix regex of
`_clean_round_title`: `sprint(?:\s*race)?|gp\s*sprint|sprint\s*gp`. -/
def sprintSuffixAlt : Mch :=
  mchAlt [
    mchSeq (mchLit "sprint") (mchOpt (mchSeq mchWs0 (mchLit "race"))),
    mchSeq (mchLit "gp") (mchSeq mchWs0 (mchLit "sprint")),
    mchSeq (mchLit "sprint") (mchSeq mchWs0 (mchLit "gp"))]

/-- The punctuation class `[\s\-–—,:]` both suffix regexes open with. -/
def isSuffixPunct (c : Char) : Bool :=
  isPySpace c || c = '-' || c = '–' || c = '—' || c = ',' || c = ':'

/-- Does `[\s\-–—,:]*` followed by `alt` match the whole input? -/
def classStarThen (alt : List Char → Bool) : List Char → Bool
  | [] => alt []
  | c :: rest => alt (c :: rest) || (isSuffixPunct c && classStarThen alt rest)

/-- The suffix of the input matched by `SESSION_SUFFIX_RE` starts here. -/
def sessionSuffixHere (s : List Char) : Bool :=
  classStarThen (mchFull sessionSuffixAlt) s

/-- The suffix matched by the sprint regex (its alternation is followed by
`\s*` before the anchor) starts here. -/
def sprintSuffixHere (s : List Char) : Bool :=
  classStarThen (mchFull (mchSeq sprintSuffixAlt mchWs0)) s

/-- The text before the leftmost position whose suffix satisfies `p`;
`none` when no position does. -/
def findStrip (p : List Char → Bool) : List Char → Option (List Char)
  | [] => if p [] then some [] else none
  | c :: rest => if p (c :: rest) then some [] else (findStrip p rest).map (c :: ·)

/-- `re.sub(pattern, "", s)` for an end-anchored pattern with a nonempty
match: remove the leftmost match, which necessarily runs to the end. -/
def reSubEnd (p : List Char → Bool) (s : List Char) : List Char :=
  (findStrip p s).getD s

/-- `str.strip(chars)` for an explicit character set. -/
def stripChars (cs : List Char) (l : List Char) : List Char :=
  ((l.dropWhile (cs.contains ·)).reverse.dropWhile (cs.contains ·)).reverse

/-- The strip set `" -–—,:"` used by `_clean_round_title`. -/
def stripSet6 : List Char := [' ', '-', '–', '—', ',', ':']

/-- One pass of the while loop of `_clean_round_title`:
`SESSION_SUFFIX_RE.sub("", title).strip(" -–—,:")`. -/
def suffixPass (l : List Char) : List Char :=
  stripChars stripSet6 (reSubEnd sessionSuffixHere l)

/-- The one-shot sprint pre-pass of `_clean_round_title`:
`sprint_suffix.sub("", title).strip(" -–—,:")`. -/
def sprintPass (l : List Char) : List Char :=
  stripChars stripSet6 (reSubEnd sprintSuffixHere l)

/-- The while loop of `_clean_round_title`, run until `suffixPass` is at a
fixpoint. Each continuing iteration strictly shortens the title, so a fuel of
`length + 1` never runs out. -/
def cleanLoop : Nat → List Char → List Char
  | 0, t => t
  | fuel + 1, t =>
    let s := suffixPass t
    if s = t then t else cleanLoop fuel s

/-- `_clean_round_title(raw_title, fallback)` of the Formula 1 script. -/
def _clean_round_title (raw_title : Option String) (fallback : String) : String :=
  match raw_title with
  | none => fallback
  | some raw =>
    if raw = "" then fallback
    else
      let t0 := pyStripWs raw.data
      let t1 := sprintPass t0
      let t2 := cleanLoop (t1.length + 1) t1
      if t2 = [] then fallback else String.mk t2

/-- A session slot of the Formula 1 weekend templates, as the source's
frozen dataclass. -/
structure SessionSlot where
  slug : String
  title : String
  keywords : List String
  summary_hint : String
  day_offset : Int
  fallback_slugs : List String := []
  deriving DecidableEq, Repr

/-- The combined searchable text `_match_session_event` builds per event:
`" ".join([strEvent, strEventAlternate, strFilename]).lower()` with falsy
fields replaced by the empty string. -/
def combinedSearchText (event : Event) : String :=
  pyLower (String.intercalate " "
    [event.strEvent.getD "", event.strEventAlternate.getD "", event.strFilename.getD ""])

/-- Does the event's combined text contain one of the lowered keywords as a
substring? This is the per-event test of `_match_session_event`. -/
def eventMatchesKeywords (keywords : List String) (event : Event) : Bool :=
  keywords.any (fun kw => strHasSub (pyLower kw).data (combinedSearchText event).data)

/-- `_match_session_event(events, keywords)`: the first event, in the given
order, whose combined searchable text contains one of the keywords. -/
def _match_session_event : List Event → List String → Option Event
  | [], _ => none
  | e :: rest, keywords =>
    if eventMatchesKeywords keywords e then some e else _match_session_event rest keywords

/-- `_is_sprint_weekend(events)`: some event mentions "sprint" in its title,
alternate title or description. -/
def _is_sprint_weekend (events : List Event) : Bool :=
  events.any (fun e =>
    strHasSub "sprint".data
      (pyLower (String.intercalate " "
        [e.strEvent.getD "", e.strEventAlternate.getD "", e.strDescriptionEN.getD ""])).data)

/-- A word boundary before the candidate `fp` (start of string or a non-word
character); the title is already lowered. -/
def fpBoundaryBefore : Option Char → Bool
  | none => true
  | some c => !(c.isAlphanum || c = '_')

/-- A word boundary after the digit of `fp\d`. -/
def fpBoundaryAfter : List Char → Bool
  | [] => true
  | c :: _ => !(c.isAlphanum || c = '_')

/-- Does `fp\d\b` match at the head of the list? -/
def fpAt : List Char → Bool
  | 'f' :: 'p' :: d :: rest => d.isDigit && fpBoundaryAfter rest
  | _ => false

/-- `re.search(r"\bfp\d\b", title)` on a lowered title. -/
def fpSearch : Option Char → List Char → Bool
  | _, [] => false
  | prev, c :: rest => (fpBoundaryBefore prev && fpAt (c :: rest)) || fpSearch (some c) rest

/-- The priority class of `_select_primary_event`: race/main 0, qualifying 1,
sprint 2, practice 3, other 4, decided by keyword presence in the lowered
`strEvent` title. -/
def priorityRank (event : Event) : Int :=
  let title := (pyLower (event.strEvent.getD "")).data
  let is_practice := strHasSub "practice".data title || fpSearch none title
  let is_qualifying := strHasSub "qualifying".data title && !strHasSub "sprint".data title
  let is_sprint := strHasSub "sprint".data title
  let is_race := strHasSub "race".data title
    || (strHasSub "grand prix".data title && !(is_practice || is_qualifying || is_sprint))
  if is_race then 0
  else if is_qualifying then 1
  else if is_sprint then 2
  else if is_practice then 3
  else 4

/-- The sort key of `_select_primary_event`: `(rank, event date)`. -/
def priorityKey (today : Int) (event : Event) : Int × Int :=
  (priorityRank event, _date_from_event today event)

/-- Strict lexicographic order on priority keys, as Python compares tuples. -/
def pairLt (a b : Int × Int) : Bool :=
  a.1 < b.1 || (a.1 = b.1 && a.2 < b.2)

/-- Reflexive lexicographic order on priority keys. -/
def pairLe (a b : Int × Int) : Bool :=
  a.1 < b.1 || (a.1 = b.1 && a.2 ≤ b.2)

/-- Python `min(events, key=...)`: keep the current minimum unless a later
element's key is strictly smaller, so the first minimum wins. -/
def pyMinBy (key : Event → Int × Int) : Event → List Event → Event
  | best, [] => best
  | best, e :: rest =>
    if pairLt (key e) (key best) then pyMinBy key e rest else pyMinBy key best rest

/-- `_select_primary_event(events)`: `None` on an empty list, else the
minimum event under `(priority class, event date)`. -/
def _select_primary_event (today : Int) (events : List Event) : Option Event :=
  match events with
  | [] => none
  | e :: rest => some (pyMinBy (priorityKey today) e rest)

/-- Association-list lookup, the embedding of Python `dict.get`. -/
def alistGet {κ α : Type} [DecidableEq κ] : List (κ × α) → κ → Option α
  | [], _ => none
  | (k, v) :: rest, key => if k = key then some v else alistGet rest key

/-- Python `dict.setdefault(k, v)`: keep an existing entry, else append. -/
def alistSetdefault {κ α : Type} [DecidableEq κ] (m : List (κ × α)) (k : κ) (v : α) :
    List (κ × α) :=
  match alistGet m k with
  | some _ => m
  | none => m ++ [(k, v)]

/-- Python `dict[k] = v`: replace an existing entry in place, else append. -/
def alistSet {κ α : Type} [DecidableEq κ] : List (κ × α) → κ → α → List (κ × α)
  | [], k, v => [(k, v)]
  | (k0, v0) :: rest, k, v =>
    if k0 = k then (k0, v) :: rest else (k0, v0) :: alistSet rest k v

/-- `events_by_round.setdefault(r, []).append(e)`. -/
def alistAppendEvent : List (Int × List Event) → Int → Event → List (Int × List Event)
  | [], r, e => [(r, [e])]
  | (k, evs) :: rest, r, e =>
    if k = r then (k, evs ++ [e]) :: rest else (k, evs) :: alistAppendEvent rest r e

/-- The matched-events loop of `build_metadata`: for each slot of the plan in
order, a truthy direct match is recorded under the slot's slug with
`setdefault`. -/
def buildMatchedEvents (fixtures : List Event) : List SessionSlot → List (String × Event) →
    List (String × Event)
  | [], m => m
  | slot :: plan, m =>
    buildMatchedEvents fixtures plan
      (match _match_session_event fixtures slot.keywords with
       | some ev => if eventTruthy ev then alistSetdefault m slot.slug ev else m
       | none => m)

/-- The matched-events dict of one round. -/
def matchedEvents (fixtures : List Event) (plan : List SessionSlot) : List (String × Event) :=
  buildMatchedEvents fixtures plan []

/-- The fallback for-loop of `build_metadata`: `source_event` is overwritten
by each `matched_events.get(fallback_slug)` and the loop breaks at the first
truthy value, so the final value is the last lookup when none was truthy. -/
def fallbackScan (m : List (String × Event)) : List String → Option Event
  | [] => none
  | s :: rest =>
    match alistGet m s with
    | none => fallbackScan m rest
    | some e =>
      if eventTruthy e then some e
      else if rest.isEmpty then some e else fallbackScan m rest

/-- The first fallback slug that has a matched event, declaratively. -/
def firstFallbackHit (m : List (String × Event)) : List String → Option Event
  | [] => none
  | s :: rest =>
    match alistGet m s with
    | some e => some e
    | none => firstFallbackHit m rest

/-- Python `a or b or {}` on optional event dicts. -/
def pyOrEvent (a b : Option Event) : Event :=
  match a with
  | some e =>
    if eventTruthy e then e
    else
      match b with
      | some e2 => if eventTruthy e2 then e2 else emptyEvent
      | none => emptyEvent
  | none =>
    match b with
    | some e2 => if eventTruthy e2 then e2 else emptyEvent
    | none => emptyEvent

/-- `artwork_event = primary_event or (fixtures[0] if fixtures else None)`. -/
def artworkEvent (primary : Option Event) (fixtures : List Event) : Option Event :=
  match primary with
  | some e => if eventTruthy e then some e else fixtures.head?
  | none => fixtures.head?

/-- The per-slot source-event selection of `build_metadata`: the slot's own
matched event, else the fallback loop, else
`primary_event or artwork_event or dict()`. -/
def resolveSourceEvent (m : List (String × Event)) (slot : SessionSlot)
    (primary artwork : Option Event) : Event :=
  let direct :=
    match alistGet m slot.slug with
    | some e => some e
    | none => fallbackScan m slot.fallback_slugs
  match direct with
  | some e => e
  | none => pyOrEvent primary artwork

/-- `context_event = primary_event or artwork_event or dict()` of one round. -/
def contextEvent (today : Int) (fixtures : List Event) : Event :=
  pyOrEvent (_select_primary_event today fixtures)
    (artworkEvent (_select_primary_event today fixtures) fixtures)

/-- Python `max(dates)` on a nonempty list, as a fold. -/
def maxIntList (d : Int) (ds : List Int) : Int :=
  ds.foldl max d

/-- `race_date = max(dates) if dates else _date_from_event(context_event)`. -/
def raceDate (today : Int) (fixtures : List Event) : Int :=
  match fixtures.map (_date_from_event today) with
  | [] => _date_from_event today (contextEvent today fixtures)
  | d :: ds => maxIntList d ds

/-- The source event the episode of one slot is built from, with the same
`matched_events`, `primary_event` and `artwork_event` as `build_metadata`. -/
def episodeSource (today : Int) (fixtures : List Event) (plan : List SessionSlot)
    (slot : SessionSlot) : Event :=
  resolveSourceEvent (matchedEvents fixtures plan) slot
    (_select_primary_event today fixtures)
    (artworkEvent (_select_primary_event today fixtures) fixtures)

/-- An output episode, restricted to the fields the verified claims are
about; the summary prose and poster URL of the source record are rendering
concerns driven by CLI templates. -/
structure Episode where
  index : Nat
  title : String
  originally_available : Int
  deriving DecidableEq, Repr

/-- The `for index, slot in enumerate(session_plan, start=1)` loop: one
episode per slot, dated `race_date + timedelta(days=slot.day_offset)`. -/
def episodesAux (raceD : Int) : Nat → List SessionSlot → List Episode
  | _, [] => []
  | i, slot :: plan =>
    { index := i, title := slot.title, originally_available := raceD + slot.day_offset }
      :: episodesAux raceD (i + 1) plan

/-- The episode list of one round of `build_metadata`. -/
def buildRoundEpisodes (today : Int) (fixtures : List Event) (plan : List SessionSlot) :
    List Episode :=
  episodesAux (raceDate today fixtures) 1 plan

/-- `STANDARD_WEEKEND_SESSIONS` of the Formula 1 script. -/
def STANDARD_WEEKEND_SESSIONS : List SessionSlot := [
  { slug := "drivers-press-conference", title := "Drivers Press Conference",
    keywords := ["press conference", "drivers press", "media day"],
    summary_hint := "Selected drivers brief the media on car updates and expectations for the weekend.",
    day_offset := -2, fallback_slugs := ["race"] },
  { slug := "weekend-warm-up", title := "Weekend Warm Up",
    keywords := ["weekend warm", "warmup", "warm-up"],
    summary_hint := "Preview show covering track walks, tyre choices and evolving weather conditions.",
    day_offset := -2, fallback_slugs := ["drivers-press-conference", "race"] },
  { slug := "free-practice-1", title := "Free Practice 1",
    keywords := ["practice 1", "free practice 1", "fp1"],
    summary_hint := "Opening practice hour focused on systems checks and baseline setup work.",
    day_offset := -2, fallback_slugs := ["race"] },
  { slug := "free-practice-2", title := "Free Practice 2",
    keywords := ["practice 2", "free practice 2", "fp2"],
    summary_hint := "Second practice mirrors race conditions for long-run and tyre evaluation.",
    day_offset := -2, fallback_slugs := ["free-practice-1", "race"] },
  { slug := "free-practice-3", title := "Free Practice 3",
    keywords := ["practice 3", "free practice 3", "fp3"],
    summary_hint := "Final tune-up where teams chase qualifying simulations and outright pace.",
    day_offset := -1, fallback_slugs := ["free-practice-2", "race"] },
  { slug := "pre-qualifying-show", title := "Pre Qualifying Show",
    keywords := ["pre qualifying", "pre-qualifying"],
    summary_hint := "Build-up show that recaps practice data before knockout qualifying begins.",
    day_offset := -1, fallback_slugs := ["qualifying", "race"] },
  { slug := "qualifying", title := "Qualifying",
    keywords := ["qualifying", "qualy", "qualification"],
    summary_hint := "Three-stage knockout session that sets the grid for the Grand Prix.",
    day_offset := -1, fallback_slugs := ["race"] },
  { slug := "post-qualifying-show", title := "Post Qualifying Show",
    keywords := ["post qualifying", "post-qualifying"],
    summary_hint := "Immediate reaction, interviews and technical analysis after qualifying.",
    day_offset := -1, fallback_slugs := ["qualifying", "race"] },
  { slug := "pre-race-show", title := "Pre Race Show",
    keywords := ["pre race", "pre-race"],
    summary_hint := "Grid walk coverage with final strategy talk before lights out.",
    day_offset := 0, fallback_slugs := ["race"] },
  { slug := "race", title := "Race",
    keywords := ["race", "grand prix"],
    summary_hint := "Full Grand Prix distance deciding the championship points haul.",
    day_offset := 0, fallback_slugs := ["qualifying"] },
  { slug := "post-race-show", title := "Post Race Show",
    keywords := ["post race", "post-race"],
    summary_hint := "Podium ceremonies, driver interviews and parc ferme debriefs.",
    day_offset := 0, fallback_slugs := ["race"] }]

/-- `SPRINT_WEEKEND_SESSIONS` of the Formula 1 script. -/
def SPRINT_WEEKEND_SESSIONS : List SessionSlot := [
  { slug := "drivers-press-conference", title := "Drivers Press Conference",
    keywords := ["press conference", "drivers press", "media day"],
    summary_hint := "Selected drivers brief the media on car updates and expectations for the weekend.",
    day_offset := -2, fallback_slugs := ["race"] },
  { slug := "weekend-warm-up", title := "Weekend Warm Up",
    keywords := ["weekend warm", "warmup", "warm-up"],
    summary_hint := "Preview show covering track walks, tyre choices and evolving weather conditions.",
    day_offset := -2, fallback_slugs := ["drivers-press-conference", "race"] },
  { slug := "free-practice-1", title := "Free Practice 1",
    keywords := ["practice 1", "free practice 1", "fp1"],
    summary_hint := "Only practice session before the sprint shootout, vital for rapid setup work.",
    day_offset := -2, fallback_slugs := ["race"] },
  { slug := "sprint-qualifying", title := "Sprint Qualifying",
    keywords := ["sprint qualifying", "sprint shootout"],
    summary_hint := "Short sprint shootout that sets the grid for the sprint race.",
    day_offset := -1, fallback_slugs := ["free-practice-1", "race"] },
  { slug := "pre-sprint-show", title := "Pre Sprint Show",
    keywords := ["pre sprint", "pre-sprint"],
    summary_hint := "Studio build-up covering sprint strategies, tyre allocations and weather.",
    day_offset := -1, fallback_slugs := ["sprint", "sprint-qualifying"] },
  { slug := "sprint", title := "Sprint",
    keywords := ["sprint", "sprint race"],
    summary_hint := "100km dash awarding points to the top eight and shaping the weekend narrative.",
    day_offset := -1, fallback_slugs := ["sprint-qualifying", "qualifying", "race"] },
  { slug := "post-sprint-show", title := "Post Sprint Show",
    keywords := ["post sprint", "post-sprint"],
    summary_hint := "Analysis and driver interviews immediately after the sprint finish.",
    day_offset := -1, fallback_slugs := ["sprint", "qualifying"] },
  { slug := "pre-qualifying-show", title := "Pre Qualifying Show",
    keywords := ["pre qualifying", "pre-qualifying"],
    summary_hint := "Reset before traditional qualifying that locks in the Grand Prix grid.",
    day_offset := -2, fallback_slugs := ["qualifying", "sprint"] },
  { slug := "qualifying", title := "Qualifying",
    keywords := ["qualifying", "qualy", "qualification"],
    summary_hint := "Knockout qualifying held after the sprint to define the start order.",
    day_offset := -2, fallback_slugs := ["sprint", "race"] },
  { slug := "post-qualifying-show", title := "Post Qualifying Show",
    keywords := ["post qualifying", "post-qualifying"],
    summary_hint := "Reactions and technical analysis once the Grand Prix grid is finalised.",
    day_offset := -2, fallback_slugs := ["qualifying", "race"] },
  { slug := "pre-race-show", title := "Pre Race Show",
    keywords := ["pre race", "pre-race"],
    summary_hint := "Grid walk coverage with final strategy talk before lights out.",
    day_offset := 0, fallback_slugs := ["race"] },
  { slug := "race", title := "Race",
    keywords := ["race", "grand prix"],
    summary_hint := "Full Grand Prix distance deciding the championship points haul.",
    day_offset := 0, fallback_slugs := ["qualifying"] },
  { slug := "post-race-show", title := "Post Race Show",
    keywords := ["post race", "post-race"],
    summary_hint := "Podium ceremonies, driver interviews and parc ferme debriefs.",
    day_offset := 0, fallback_slugs := ["race"] }]

/-- `session_plan` choice of `build_metadata`: sprint template on a sprint
weekend, standard template otherwise. -/
def sessionPlanFor (fixtures : List Event) : List SessionSlot :=
  if _is_sprint_weekend fixtures then SPRINT_WEEKEND_SESSIONS else STANDARD_WEEKEND_SESSIONS

/-- `int(event.get("intRound") or 0)` of the Formula 1 partition: a falsy
field is `0`, a non-parseable string is `ValueError` (`none`). -/
def f1RoundNumber (event : Event) : Option Int :=
  match event.intRound with
  | none => some 0
  | some s => if s = "" then some 0 else pyIntParse s

/-- One event of the Formula 1 partition loop: `ValueError` skips, round 0
skips, out-of-range skips, else append to the round's bucket. -/
def partitionStep (start stop : Int) (m : List (Int × List Event)) (event : Event) :
    List (Int × List Event) :=
  match f1RoundNumber event with
  | none => m
  | some r =>
    if r = 0 then m
    else if r < start ∨ stop < r then m
    else alistAppendEvent m r event

/-- The Formula 1 partition loop over the bulk events. -/
def partitionRun (start stop : Int) : List Event → List (Int × List Event) →
    List (Int × List Event)
  | [], m => m
  | e :: rest, m => partitionRun start stop rest (partitionStep start stop m e)

/-- `events_by_round` after the partition phase of `build_metadata`. -/
def partitionByRound (bulk : List Event) (start stop : Int) : List (Int × List Event) :=
  partitionRun start stop bulk []

/-- `range(start, stop + 1)` over integers. -/
def intRangeIncl (start stop : Int) : List Int :=
  (List.range (stop + 1 - start).toNat).map (fun (k : Nat) => start + (k : Int))

/-- Truthiness of `events_by_round.get(r)`: present with a nonempty bucket. -/
def roundTruthy (m : List (Int × List Event)) (r : Int) : Bool :=
  match alistGet m r with
  | some evs => !evs.isEmpty
  | none => false

/-- The matchweek fill loop: rounds with a truthy bucket are skipped, every
other round costs one `fetch_round_events` call (counted), and only a
nonempty fetch result is stored. -/
def fillLoop (fetch : Int → List Event) : List Int → List (Int × List Event) →
    List (Int × List Event) × Nat
  | [], m => (m, 0)
  | r :: rest, m =>
    if roundTruthy m r then fillLoop fetch rest m
    else
      let evs := fetch r
      let m2 := if evs.isEmpty then m else alistSet m r evs
      let p := fillLoop fetch rest m2
      (p.1, p.2 + 1)

/-- The Round Assembler of `build_metadata`: partition the bulk feed, then,
unless `--skip-matchweek-fill` is set or the range is empty, fill the gaps
round by round. The second component counts the per-round fetches issued. -/
def assembleRounds (bulk : List Event) (start stop : Int) (skip_matchweek_fill : Bool)
    (fetch : Int → List Event) : List (Int × List Event) × Nat :=
  let m := partitionByRound bulk start stop
  if skip_matchweek_fill = false ∧ start ≤ stop then
    fillLoop fetch (intRangeIncl start stop) m
  else (m, 0)

/-- Insertion into an ascending list, for the embedding of `sorted(...)`. -/
def insertAsc (x : Int) : List Int → List Int
  | [] => [x]
  | y :: ys => if x ≤ y then x :: y :: ys else y :: insertAsc x ys

/-- Ascending sort of round numbers (`sorted(events_by_round)`). -/
def sortAsc : List Int → List Int
  | [] => []
  | x :: xs => insertAsc x (sortAsc xs)

/-- The round numbers downstream iteration visits:
`for round_number in sorted(events_by_round)`. -/
def sortedRounds (m : List (Int × List Event)) : List Int :=
  sortAsc (m.map Prod.fst)

/-- The candidate scan of `_round_number_from_event` (ISU, NFL and UFC
scripts): skip `None`, `""` and `"0"`, return the first parseable value. -/
def roundCandidateScan : List (Option String) → Option Int
  | [] => none
  | v :: rest =>
    match v with
    | none => roundCandidateScan rest
    | some s =>
      if s = "" ∨ s = "0" then roundCandidateScan rest
      else
        match pyIntParse s with
        | some n => some n
        | none => roundCandidateScan rest

/-- `_round_number_from_event(event)`: `intRound` then `strRound`. -/
def _round_number_from_event (event : Event) : Option Int :=
  roundCandidateScan [event.intRound, event.strRound]

/-- `fetch_round_events` of the ISU script, with the transport abstracted:
`roundUrlAvailable` is whether `sportsdb.round_url` returned a URL (it is
`None` exactly on API v2), and `fetched` is the event list the chosen URL
yields. On the fallback path the season fetch is filtered by round. -/
def fetch_round_events_isu (roundUrlAvailable : Bool) (fetched : List Event)
    (round_number : Int) : List Event :=
  if roundUrlAvailable then fetched
  else fetched.filter (fun e => _round_number_from_event e = some round_number)

/-- The `NameError` message of the Formula 1 fallback path. -/
def f1FallbackNameError : String :=
  "NameError: name _round_number_from_event is not defined"

/-- `fetch_round_events` of the Formula 1 script. Its fallback filter calls
`_round_number_from_event`, a name that is neither defined nor imported in
that module, so the comprehension raises `NameError` as soon as the season
fetch has at least one event; an empty season fetch never evaluates the
condition and yields an empty list. -/
def fetch_round_events_f1 (roundUrlAvailable : Bool) (fetched : List Event)
    (round_number : Int) : Except String (List Event) :=
  if roundUrlAvailable then Except.ok fetched
  else if fetched.isEmpty then Except.ok []
  else Except.error f1FallbackNameError

/-- `re.split(r"\s+", value.strip())` with empty tokens dropped: the word
tokenizer `_tokenize_title` of the ISU script, on char lists. -/
def wordsAux : List Char → List Char → List (List Char)
  | acc, [] => if acc.isEmpty then [] else [acc.reverse]
  | acc, c :: rest =>
    if isPySpace c then
      if acc.isEmpty then wordsAux [] rest else acc.reverse :: wordsAux [] rest
    else wordsAux (c :: acc) rest

/-- `_tokenize_title(value)` of the ISU script. -/
def _tokenize_title (value : String) : List String :=
  (wordsAux [] value.data).map String.mk

/-- `SESSION_DESCRIPTOR_SEQUENCES` of the ISU script, in source order. -/
def SESSION_DESCRIPTOR_SEQUENCES : List (List String) := [
  ["pairs"], ["women"], ["men"], ["ice", "dance"], ["rhythm", "dance"],
  ["free", "dance"], ["free", "skating"], ["short", "program"], ["exhibition"],
  ["gala"], ["practice"], ["warm"], ["opening"], ["closing"], ["awards"],
  ["ceremony"]]

/-- Does some descriptor sequence start at the head of the lowered tokens? -/
def descriptorAt (lowered : List String) : Bool :=
  SESSION_DESCRIPTOR_SEQUENCES.any (fun q => q.isPrefixOf lowered)

/-- The index scan of `_find_descriptor_index` over the lowered tokens. -/
def findDescriptorIdxAux : Nat → List String → Option Nat
  | _, [] => none
  | i, s :: rest =>
    if descriptorAt (s :: rest) then some i else findDescriptorIdxAux (i + 1) rest

/-- `_find_descriptor_index(tokens)`: the first token index where one of the
descriptor sequences matches, case-insensitively. -/
def _find_descriptor_index (tokens : List String) : Option Nat :=
  findDescriptorIdxAux 0 (tokens.map pyLower)

/-- `_strip_session_descriptor(title)`: the words before the first descriptor
occurrence, empty when there is none or it starts at word 0. -/
def _strip_session_descriptor (title : String) : String :=
  let tokens := _tokenize_title title
  if tokens.isEmpty then ""
  else
    match _find_descriptor_index tokens with
    | none => ""
    | some 0 => ""
    | some i => pyStripWsStr (String.intercalate " " (tokens.take i))

/-- `min(len(tokens) for tokens in tokenized)` with `t0` the first entry. -/
def minLenOf (t0 : List String) (rest : List (List String)) : Nat :=
  rest.foldl (fun a l => min a l.length) t0.length

/-- The common-word loop shared by the leading and trailing extractors: walk
index 0, 1, ... while every tokenized title agrees case-insensitively with
the first title's word, collecting the first title's spelling. The fuel is
the minimum length, so every `getD` stays in range. -/
def leadLoop (tokenized : List (List String)) (t0 : List String) : Nat → Nat → List String
  | _, 0 => []
  | idx, fuel + 1 =>
    let candidate := t0.getD idx ""
    if tokenized.all (fun l => pyLower (l.getD idx "") = pyLower candidate) then
      candidate :: leadLoop tokenized t0 (idx + 1) fuel
    else []

/-- The longest common leading word sequence across the titles
(`_longest_common_word_prefix` of the ISU script; renamed for this
development). Whitespace-only titles are dropped before tokenizing. -/
def longestCommonLeadingWords (titles : List String) : String :=
  if titles.isEmpty then ""
  else
    match (titles.filter (fun t => !(pyStripWsStr t = ""))).map _tokenize_title with
    | [] => ""
    | t0 :: rest =>
      pyStripWsStr (String.intercalate " " (leadLoop (t0 :: rest) t0 0 (minLenOf t0 rest)))

/-- The longest common trailing word sequence across the titles
(`_longest_common_word_suffix` of the ISU script; renamed for this
development): the leading extractor over the reversed token lists, with the
collected words reversed back. -/
def longestCommonTrailingWords (titles : List String) : String :=
  if titles.isEmpty then ""
  else
    match (titles.filter (fun t => !(pyStripWsStr t = ""))).map _tokenize_title with
    | [] => ""
    | t0 :: rest =>
      let r0 := t0.reverse
      let rrest := rest.map List.reverse
      pyStripWsStr (String.intercalate " "
        ((leadLoop (r0 :: rrest) r0 0 (minLenOf r0 rrest)).reverse))

/-- `Counter` increment with insertion order kept:
`trimmed_counts[stripped] += 1`. -/
def counterAdd : List (String × Nat) → String → List (String × Nat)
  | [], k => [(k, 1)]
  | (k0, n) :: rest, k =>
    if k0 = k then (k0, n + 1) :: rest else (k0, n) :: counterAdd rest k

/-- The counting loop of `_derive_round_title`: only nonempty stripped names
are counted. -/
def trimmedCountsRun : List String → List (String × Nat) → List (String × Nat)
  | [], m => m
  | t :: rest, m =>
    trimmedCountsRun rest
      (if _strip_session_descriptor t = "" then m
       else counterAdd m (_strip_session_descriptor t))

/-- `trimmed_counts` of `_derive_round_title`. -/
def trimmedCounts (titles : List String) : List (String × Nat) :=
  trimmedCountsRun titles []

/-- The count a counter holds for a key, 0 when absent. -/
def countOf (m : List (String × Nat)) (k : String) : Nat :=
  match alistGet m k with
  | some n => n
  | none => 0

/-- The `max(..., key=...)` key of `_derive_round_title`:
`(count, len(name))`. -/
def counterKey (item : String × Nat) : Nat × Nat :=
  (item.2, item.1.length)

/-- Strict lexicographic greater-than on counter keys. -/
def pairGtN (a b : Nat × Nat) : Bool :=
  b.1 < a.1 || (a.1 = b.1 && b.2 < a.2)

/-- Reflexive lexicographic order on counter keys. -/
def pairLeN (a b : Nat × Nat) : Bool :=
  a.1 < b.1 || (a.1 = b.1 && a.2 ≤ b.2)

/-- Python `max(items, key=...)`: replace the current maximum only on a
strictly greater key, so the first maximum wins. -/
def pyMaxCounter : String × Nat → List (String × Nat) → String × Nat
  | best, [] => best
  | best, x :: rest =>
    if pairGtN (counterKey x) (counterKey best) then pyMaxCounter x rest
    else pyMaxCounter best rest

/-- The base-name fallback chain of `_derive_round_title` (the value of
`base_name` right after the `if session_titles:` block, before the final
punctuation trim and the venue fallbacks): most frequent stripped name
tie-broken by length, else common leading words, else common trailing words,
else the whitespace-stripped first title. -/
def derivedBaseName (session_titles : List String) : String :=
  if session_titles.isEmpty then ""
  else
    let b1 :=
      match trimmedCounts session_titles with
      | [] => ""
      | c :: cs => (pyMaxCounter c cs).1
    let b2 := if b1 = "" then longestCommonLeadingWords session_titles else b1
    let b3 := if b2 = "" then longestCommonTrailingWords session_titles else b2
    if b3 = "" then pyStripWsStr (session_titles.headD "") else b3

/-- A concrete qualifying-session event used by closed witnesses. -/
def sampleQualifyingEvent : Event :=
  { strEvent := some "Italian Grand Prix Qualifying", intRound := some "16",
    dateEvent := some "2025-09-06" }

/-- A concrete race event used by closed witnesses. -/
def sampleRaceEvent : Event :=
  { strEvent := some "Italian Grand Prix", intRound := some "16",
    dateEvent := some "2025-09-07" }

/-- A concrete slot with no matching keyword and one fallback slug, used by
closed witnesses. -/
def sampleUnmatchedSlot : SessionSlot :=
  { slug := "studio-show", title := "Studio Show", keywords := ["studio show"],
    summary_hint := "", day_offset := 0, fallback_slugs := ["race"] }

/-- The Round Assembler invariant of the spec: every round key lies in
`[start, stop]` and owns at least one event. -/
def roundsWellFormed (start stop : Int) (m : List (Int × List Event)) : Prop :=
  ∀ p ∈ m, start ≤ p.1 ∧ p.1 ≤ stop ∧ p.2 ≠ []

/-- Every bucket of the bulk partition holds only events whose parsed round
number is exactly the bucket key, which is never 0: events with round 0 or a
non-parseable round are in no bucket. -/
def bucketsRoundTagged (m : List (Int × List Event)) : Prop :=
  ∀ p ∈ m, p.1 ≠ 0 ∧ ∀ e ∈ p.2, f1RoundNumber e = some p.1

theorem episodesAux_length (raceD : Int) :
    ∀ (plan : List SessionSlot) (i : Nat), (episodesAux raceD i plan).length = plan.length := by
  intro plan
  induction plan with
  | nil => intro i; rfl
  | cons s rest ih => intro i; simp [episodesAux, ih]

theorem episodesAux_map_index (raceD : Int) :
    ∀ (plan : List SessionSlot) (i : Nat),
      (episodesAux raceD i plan).map Episode.index
        = (List.range plan.length).map (fun k => i + k) := by
  intro plan
  induction plan with
  | nil => intro i; rfl
  | cons s rest ih =>
    intro i
    simp only [episodesAux, List.map_cons, ih, List.length_cons,
      List.range_succ_eq_map, List.map_map]
    congr 1
    refine List.map_congr_left ?_
    intro a _
    show i + 1 + a = i + (a + 1)
    omega

theorem episodesAux_map_title (raceD : Int) :
    ∀ (plan : List SessionSlot) (i : Nat),
      (episodesAux raceD i plan).map Episode.title = plan.map SessionSlot.title := by
  intro plan
  induction plan with
  | nil => intro i; rfl
  | cons s rest ih => intro i; simp [episodesAux, ih]

theorem episodesAux_map_date (raceD : Int) :
    ∀ (plan : List SessionSlot) (i : Nat),
      (episodesAux raceD i plan).map Episode.originally_available
        = plan.map (fun s => raceD + s.day_offset) := by
  intro plan
  induction plan with
  | nil => intro i; rfl
  | cons s rest ih => intro i; simp [episodesAux, ih]

theorem le_maxIntList_self : ∀ (ds : List Int) (d : Int), d ≤ maxIntList d ds := by
  intro ds
  induction ds with
  | nil => intro d; simp [maxIntList]
  | cons x xs ih =>
    intro d
    have h1 : maxIntList d (x :: xs) = maxIntList (max d x) xs := rfl
    rw [h1]
    exact le_trans (le_max_left d x) (ih (max d x))

theorem mem_le_maxIntList : ∀ (ds : List Int) (d : Int), ∀ x ∈ ds, x ≤ maxIntList d ds := by
  intro ds
  induction ds with
  | nil => intro d x hx; cases hx
  | cons a xs ih =>
    intro d x hx
    have h1 : maxIntList d (a :: xs) = maxIntList (max d a) xs := rfl
    rw [h1]
    rcases List.mem_cons.mp hx with rfl | hx'
    · exact le_trans (le_max_right d x) (le_maxIntList_self xs (max d x))
    · exact ih (max d a) x hx'

theorem maxIntList_mem : ∀ (ds : List Int) (d : Int), maxIntList d ds ∈ d :: ds := by
  intro ds
  induction ds with
  | nil => intro d; simp [maxIntList]
  | cons a xs ih =>
    intro d
    have h1 : maxIntList d (a :: xs) = maxIntList (max d a) xs := rfl
    rw [h1]
    have h2 := ih (max d a)
    rcases List.mem_cons.mp h2 with h2 | h2
    · rw [h2]
      rcases max_choice d a with h | h <;> rw [h]
      · exact List.mem_cons_self _ _
      · exact List.mem_cons_of_mem _ (List.mem_cons_self _ _)
    · exact List.mem_cons_of_mem _ (List.mem_cons_of_mem _ h2)

/-- C1: for every round's event list and every session-slot template of N
slots, the Session Slot Matcher emits exactly N episodes, one per slot in
template order, with index fields 1..N in that order — also on the empty
event list. -/
theorem c1_slot_matcher_episode_shape :
    ∀ (today : Int) (fixtures : List Event) (plan : List SessionSlot),
      (buildRoundEpisodes today fixtures plan).length = plan.length
      ∧ (buildRoundEpisodes today fixtures plan).map Episode.index
          = (List.range plan.length).map (fun k => k + 1)
      ∧ (buildRoundEpisodes today fixtures plan).map Episode.title
          = plan.map SessionSlot.title := by
  intro today fixtures plan
  refine ⟨episodesAux_length _ plan 1, ?_, episodesAux_map_title _ plan 1⟩
  rw [buildRoundEpisodes, episodesAux_map_index]
  refine List.map_congr_left ?_
  intro a _
  omega

/-- C3: for a round with at least one event, every emitted episode is dated
at the round's reference date (the maximum event date of the round) plus the
slot's signed day offset, slot by slot in template order. -/
theorem c3_episode_dates_from_reference :
    ∀ (today : Int) (fixtures : List Event) (plan : List SessionSlot),
      fixtures ≠ [] →
      (buildRoundEpisodes today fixtures plan).map Episode.originally_available
          = plan.map (fun s => raceDate today fixtures + s.day_offset)
      ∧ (∀ e ∈ fixtures, _date_from_event today e ≤ raceDate today fixtures)
      ∧ raceDate today fixtures ∈ fixtures.map (_date_from_event today) := by
  intro today fixtures plan hne
  refine ⟨episodesAux_map_date _ plan 1, ?_, ?_⟩
  · intro e he
    match fixtures, hne with
    | f :: fs, _ =>
      have hr : raceDate today (f :: fs)
          = maxIntList (_date_from_event today f) (fs.map (_date_from_event today)) := by
        simp [raceDate]
      rw [hr]
      rcases List.mem_cons.mp he with rfl | he'
      · exact le_maxIntList_self _ _
      · exact mem_le_maxIntList _ _ _ (List.mem_map_of_mem _ he')
  · match fixtures, hne with
    | f :: fs, _ =>
      have hr : raceDate today (f :: fs)
          = maxIntList (_date_from_event today f) (fs.map (_date_from_event today)) := by
        simp [raceDate]
      rw [hr]
      simpa using maxIntList_mem (fs.map (_date_from_event today)) (_date_from_event today f)

theorem c3_witness :
    ([sampleRaceEvent] : List Event) ≠ []
    ∧ ((buildRoundEpisodes 0 [sampleRaceEvent] STANDARD_WEEKEND_SESSIONS).map
          Episode.originally_available
        = STANDARD_WEEKEND_SESSIONS.map (fun s => raceDate 0 [sampleRaceEvent] + s.day_offset)
      ∧ (∀ e ∈ [sampleRaceEvent], _date_from_event 0 e ≤ raceDate 0 [sampleRaceEvent])
      ∧ raceDate 0 [sampleRaceEvent] ∈ [sampleRaceEvent].map (_date_from_event 0)) :=
  ⟨by decide, c3_episode_dates_from_reference 0 [sampleRaceEvent] STANDARD_WEEKEND_SESSIONS
    (by decide)⟩

/-- C4: on the fallback path (no per-round endpoint, as on API v2) the ISU
`fetch_round_events` returns exactly the season-fetch events whose parsed
round number equals the target; the Formula 1 copy of the same function
instead raises `NameError` there, because `_round_number_from_event` is
neither defined nor imported in that module. -/
theorem c4_fetch_round_fallback :
    (∀ (fetched : List Event) (r : Int),
        fetch_round_events_isu false fetched r
          = fetched.filter (fun e => _round_number_from_event e = some r))
    ∧ (∀ (fetched : List Event) (r : Int) (e : Event),
        e ∈ fetch_round_events_isu false fetched r
          ↔ e ∈ fetched ∧ _round_number_from_event e = some r)
    ∧ fetch_round_events_f1 false [sampleQualifyingEvent] 2
        = Except.error f1FallbackNameError := by
  refine ⟨fun fetched r => rfl, fun fetched r e => ?_, rfl⟩
  simp [fetch_round_events_isu, List.mem_filter]

/-- C7: with the fill flag disabled, or with an empty round range
(`stop < start`), the Round Assembler issues no per-round fetch at all and
returns the bulk partition unchanged, without error. -/
theorem c7_fill_disabled_no_fetch :
    ∀ (bulk : List Event) (start stop : Int) (skip : Bool) (fetch : Int → List Event),
      (skip = true ∨ stop < start) →
      assembleRounds bulk start stop skip fetch = (partitionByRound bulk start stop, 0) := by
  intro bulk start stop skip fetch h
  have hcond : ¬(skip = false ∧ start ≤ stop) := by
    rintro ⟨hs, hle⟩
    rcases h with h | h
    · subst h; simp at hs
    · omega
  show (if skip = false ∧ start ≤ stop then
          fillLoop fetch (intRangeIncl start stop) (partitionByRound bulk start stop)
        else (partitionByRound bulk start stop, 0))
      = (partitionByRound bulk start stop, 0)
  rw [if_neg hcond]

theorem c7_witness :
    ((true : Bool) = true ∨ (3 : Int) < 1)
    ∧ assembleRounds [sampleRaceEvent] 1 3 true (fun _ => [sampleQualifyingEvent])
        = (partitionByRound [sampleRaceEvent] 1 3, 0) :=
  ⟨Or.inl rfl,
    c7_fill_disabled_no_fetch [sampleRaceEvent] 1 3 true (fun _ => [sampleQualifyingEvent])
      (Or.inl rfl)⟩

/-- C10: when `dateEvent`, `dateEventLocal` and `strTimestamp` all fail to
parse, `_date_from_event` returns the current UTC date (`today`), and that
clock value propagates into the fixture sort key and the round reference
date. -/
theorem c10_date_fallback_is_clock :
    ∀ (today : Int) (event : Event),
      parsedDateField event.dateEvent = none →
      parsedDateField event.dateEventLocal = none →
      parsedTimestampField event.strTimestamp = none →
      _date_from_event today event = today
      ∧ _fixture_sort_key today event = (today, pyLower (event.strEvent.getD ""))
      ∧ raceDate today [event] = today := by
  intro today event h1 h2 h3
  have hd : _date_from_event today event = today := by
    simp [_date_from_event, h1, h2, h3]
  refine ⟨hd, ?_, ?_⟩
  · simp [_fixture_sort_key, hd]
  · simp [raceDate, hd, maxIntList]

theorem c10_witness :
    parsedDateField (some "not-a-date") = none
    ∧ parsedDateField none = none
    ∧ parsedTimestampField (some "soon") = none
    ∧ (_date_from_event 739600 { dateEvent := some "not-a-date", strTimestamp := some "soon" }
          = 739600
      ∧ _fixture_sort_key 739600 { dateEvent := some "not-a-date", strTimestamp := some "soon" }
          = (739600, pyLower ((none : Option String).getD ""))
      ∧ raceDate 739600 [{ dateEvent := some "not-a-date", strTimestamp := some "soon" }]
          = 739600) :=
  ⟨by decide, by decide, by decide,
    c10_date_fallback_is_clock 739600
      { dateEvent := some "not-a-date", strTimestamp := some "soon" }
      (by decide) (by decide) (by decide)⟩

/-- C5: a slot's direct match is exactly the first event, in the given order,
whose combined searchable text (title, alternate title and filename joined
and case-folded) contains one of the slot's keywords as a case-insensitive
substring; an event whose combined text contains no keyword is never the
direct match. -/
theorem c5_direct_match_is_first_keyword_hit :
    ∀ (keywords : List String) (events : List Event) (e : Event),
      _match_session_event events keywords = some e ↔
        ∃ l1 l2, events = l1 ++ e :: l2
          ∧ eventMatchesKeywords keywords e = true
          ∧ ∀ x ∈ l1, eventMatchesKeywords keywords x = false := by
  intro keywords events e
  induction events with
  | nil =>
    constructor
    · intro h; simp [_match_session_event] at h
    · rintro ⟨l1, l2, h, -, -⟩
      cases l1 <;> simp at h
  | cons a rest ih =>
    by_cases hm : eventMatchesKeywords keywords a = true
    · constructor
      · intro h
        simp only [_match_session_event, hm, if_true] at h
        obtain rfl : a = e := by injection h
        exact ⟨[], rest, rfl, hm, by simp⟩
      · rintro ⟨l1, l2, hsplit, he, hl1⟩
        cases l1 with
        | nil =>
          simp only [List.nil_append, List.cons.injEq] at hsplit
          obtain ⟨rfl, rfl⟩ := hsplit
          simp [_match_session_event, hm]
        | cons b l1' =>
          simp only [List.cons_append, List.cons.injEq] at hsplit
          obtain ⟨rfl, -⟩ := hsplit
          exact absurd hm (by simp [hl1 a (List.mem_cons_self a l1')])
    · constructor
      · intro h
        simp only [_match_session_event, hm, if_false] at h
        obtain ⟨l1, l2, h1, h2, h3⟩ := ih.mp h
        refine ⟨a :: l1, l2, by simp [h1], h2, ?_⟩
        intro x hx
        rcases List.mem_cons.mp hx with rfl | hx'
        · exact eq_false_of_ne_true hm
        · exact h3 x hx'
      · rintro ⟨l1, l2, hsplit, he, hl1⟩
        cases l1 with
        | nil =>
          simp only [List.nil_append, List.cons.injEq] at hsplit
          obtain ⟨rfl, rfl⟩ := hsplit
          exact absurd he hm
        | cons b l1' =>
          simp only [List.cons_append, List.cons.injEq] at hsplit
          obtain ⟨rfl, rfl⟩ := hsplit
          have : _match_session_event (l1' ++ e :: l2) keywords = some e :=
            ih.mpr ⟨l1', l2, rfl, he, fun x hx => hl1 x (List.mem_cons_of_mem _ hx)⟩
          simpa [_match_session_event, hm] using this

theorem alistAppendEvent_wf :
    ∀ (m : List (Int × List Event)) (r : Int) (e : Event) (start stop : Int),
      roundsWellFormed start stop m → start ≤ r → r ≤ stop →
      roundsWellFormed start stop (alistAppendEvent m r e) := by
  intro m
  induction m with
  | nil =>
    intro r e start stop _ h1 h2 p hp
    simp only [alistAppendEvent, List.mem_singleton] at hp
    subst hp
    exact ⟨h1, h2, by simp⟩
  | cons q rest ih =>
    intro r e start stop hm h1 h2 p hp
    obtain ⟨k, evs⟩ := q
    by_cases hk : k = r
    · simp only [alistAppendEvent, if_pos hk] at hp
      rcases List.mem_cons.mp hp with rfl | hp'
      · have := hm (k, evs) (List.mem_cons_self _ _)
        exact ⟨this.1, this.2.1, by simp⟩
      · exact hm p (List.mem_cons_of_mem _ hp')
    · simp only [alistAppendEvent, if_neg hk] at hp
      rcases List.mem_cons.mp hp with rfl | hp'
      · exact hm (k, evs) (List.mem_cons_self _ _)
      · exact ih r e start stop (fun q hq => hm q (List.mem_cons_of_mem _ hq)) h1 h2 p hp'

theorem alistSet_wf :
    ∀ (m : List (Int × List Event)) (r : Int) (evs : List Event) (start stop : Int),
      roundsWellFormed start stop m → start ≤ r → r ≤ stop → evs ≠ [] →
      roundsWellFormed start stop (alistSet m r evs) := by
  intro m
  induction m with
  | nil =>
    intro r evs start stop _ h1 h2 hne p hp
    simp only [alistSet, List.mem_singleton] at hp
    subst hp
    exact ⟨h1, h2, hne⟩
  | cons q rest ih =>
    intro r evs start stop hm h1 h2 hne p hp
    obtain ⟨k, v⟩ := q
    by_cases hk : k = r
    · simp only [alistSet, if_pos hk] at hp
      rcases List.mem_cons.mp hp with rfl | hp'
      · have := hm (k, v) (List.mem_cons_self _ _)
        exact ⟨this.1, this.2.1, hne⟩
      · exact hm p (List.mem_cons_of_mem _ hp')
    · simp only [alistSet, if_neg hk] at hp
      rcases List.mem_cons.mp hp with rfl | hp'
      · exact hm (k, v) (List.mem_cons_self _ _)
      · exact ih r evs start stop (fun q hq => hm q (List.mem_cons_of_mem _ hq)) h1 h2 hne p hp'

theorem partitionStep_wf :
    ∀ (start stop : Int) (m : List (Int × List Event)) (e : Event),
      roundsWellFormed start stop m → roundsWellFormed start stop (partitionStep start stop m e) := by
  intro start stop m e hm
  unfold partitionStep
  cases hr : f1RoundNumber e with
  | none => exact hm
  | some r =>
    by_cases h0 : r = 0
    · simp only [if_pos h0]; exact hm
    · simp only [if_neg h0]
      by_cases hrange : r < start ∨ stop < r
      · simp only [if_pos hrange]; exact hm
      · simp only [if_neg hrange]
        push_neg at hrange
        exact alistAppendEvent_wf m r e start stop hm hrange.1 hrange.2

theorem partitionRun_wf :
    ∀ (events : List Event) (start stop : Int) (m : List (Int × List Event)),
      roundsWellFormed start stop m → roundsWellFormed start stop (partitionRun start stop events m) := by
  intro events
  induction events with
  | nil => intro start stop m hm; exact hm
  | cons e rest ih =>
    intro start stop m hm
    exact ih start stop _ (partitionStep_wf start stop m e hm)

theorem partitionByRound_wf :
    ∀ (bulk : List Event) (start stop : Int),
      roundsWellFormed start stop (partitionByRound bulk start stop) := by
  intro bulk start stop
  exact partitionRun_wf bulk start stop [] (fun p hp => absurd hp (List.not_mem_nil p))

theorem mem_intRangeIncl :
    ∀ (start stop r : Int), r ∈ intRangeIncl start stop → start ≤ r ∧ r ≤ stop := by
  intro start stop r hr
  simp only [intRangeIncl, List.mem_map, List.mem_range] at hr
  obtain ⟨k, hk, rfl⟩ := hr
  omega

theorem fillLoop_wf :
    ∀ (rng : List Int) (fetch : Int → List Event) (m : List (Int × List Event)) (start stop : Int),
      roundsWellFormed start stop m → (∀ r ∈ rng, start ≤ r ∧ r ≤ stop) →
      roundsWellFormed start stop (fillLoop fetch rng m).1 := by
  intro rng
  induction rng with
  | nil => intro fetch m start stop hm _; exact hm
  | cons r rest ih =>
    intro fetch m start stop hm hrng
    by_cases ht : roundTruthy m r = true
    · simp only [fillLoop, if_pos ht]
      exact ih fetch m start stop hm (fun x hx => hrng x (List.mem_cons_of_mem _ hx))
    · simp only [fillLoop, if_neg ht]
      by_cases hev : (fetch r).isEmpty = true
      · simp only [if_pos hev]
        exact ih fetch m start stop hm (fun x hx => hrng x (List.mem_cons_of_mem _ hx))
      · simp only [if_neg hev]
        have hne : fetch r ≠ [] := by
          intro h; rw [h] at hev; exact hev rfl
        have hr := hrng r (List.mem_cons_self _ _)
        exact ih fetch _ start stop
          (alistSet_wf m r (fetch r) start stop hm hr.1 hr.2 hne)
          (fun x hx => hrng x (List.mem_cons_of_mem _ hx))

theorem alistAppendEvent_keys_sub :
    ∀ (m : List (Int × List Event)) (r : Int) (e : Event) (x : Int),
      x ∈ (alistAppendEvent m r e).map Prod.fst → x ∈ m.map Prod.fst ∨ x = r := by
  intro m
  induction m with
  | nil =>
    intro r e x hx
    simp only [alistAppendEvent, List.map_cons, List.map_nil, List.mem_singleton] at hx
    exact Or.inr hx
  | cons q rest ih =>
    intro r e x hx
    obtain ⟨k, evs⟩ := q
    by_cases hk : k = r
    · simp only [alistAppendEvent, if_pos hk, List.map_cons] at hx
      rcases List.mem_cons.mp hx with rfl | hx'
      · exact Or.inl (by simp)
      · exact Or.inl (by simp [hx'])
    · simp only [alistAppendEvent, if_neg hk, List.map_cons] at hx
      rcases List.mem_cons.mp hx with rfl | hx'
      · exact Or.inl (by simp)
      · rcases ih r e x hx' with h | h
        · exact Or.inl (by simp [h])
        · exact Or.inr h

theorem alistAppendEvent_keys_nodup :
    ∀ (m : List (Int × List Event)) (r : Int) (e : Event),
      (m.map Prod.fst).Nodup → ((alistAppendEvent m r e).map Prod.fst).Nodup := by
  intro m
  induction m with
  | nil => intro r e _; simp [alistAppendEvent]
  | cons q rest ih =>
    intro r e hm
    obtain ⟨k, evs⟩ := q
    simp only [List.map_cons, List.nodup_cons] at hm
    by_cases hk : k = r
    · simp only [alistAppendEvent, if_pos hk, List.map_cons, List.nodup_cons]
      exact hm
    · simp only [alistAppendEvent, if_neg hk, List.map_cons, List.nodup_cons]
      refine ⟨?_, ih r e hm.2⟩
      intro hx
      rcases alistAppendEvent_keys_sub rest r e k hx with h | h
      · exact hm.1 h
      · exact hk h

theorem alistSet_keys_sub :
    ∀ (m : List (Int × List Event)) (r : Int) (evs : List Event) (x : Int),
      x ∈ (alistSet m r evs).map Prod.fst → x ∈ m.map Prod.fst ∨ x = r := by
  intro m
  induction m with
  | nil =>
    intro r evs x hx
    simp only [alistSet, List.map_cons, List.map_nil, List.mem_singleton] at hx
    exact Or.inr hx
  | cons q rest ih =>
    intro r evs x hx
    obtain ⟨k, v⟩ := q
    by_cases hk : k = r
    · simp only [alistSet, if_pos hk, List.map_cons] at hx
      rcases List.mem_cons.mp hx with rfl | hx'
      · exact Or.inl (by simp)
      · exact Or.inl (by simp [hx'])
    · simp only [alistSet, if_neg hk, List.map_cons] at hx
      rcases List.mem_cons.mp hx with rfl | hx'
      · exact Or.inl (by simp)
      · rcases ih r evs x hx' with h | h
        · exact Or.inl (by simp [h])
        · exact Or.inr h

theorem alistSet_keys_nodup :
    ∀ (m : List (Int × List Event)) (r : Int) (evs : List Event),
      (m.map Prod.fst).Nodup → ((alistSet m r evs).map Prod.fst).Nodup := by
  intro m
  induction m with
  | nil => intro r evs _; simp [alistSet]
  | cons q rest ih =>
    intro r evs hm
    obtain ⟨k, v⟩ := q
    simp only [List.map_cons, List.nodup_cons] at hm
    by_cases hk : k = r
    · simp only [alistSet, if_pos hk, List.map_cons, List.nodup_cons]
      exact hm
    · simp only [alistSet, if_neg hk, List.map_cons, List.nodup_cons]
      refine ⟨?_, ih r evs hm.2⟩
      intro hx
      rcases alistSet_keys_sub rest r evs k hx with h | h
      · exact hm.1 h
      · exact hk h

theorem partitionStep_keys_nodup :
    ∀ (start stop : Int) (m : List (Int × List Event)) (e : Event),
      (m.map Prod.fst).Nodup → ((partitionStep start stop m e).map Prod.fst).Nodup := by
  intro start stop m e hm
  unfold partitionStep
  cases f1RoundNumber e with
  | none => exact hm
  | some r =>
    by_cases h0 : r = 0
    · simp only [if_pos h0]; exact hm
    · simp only [if_neg h0]
      by_cases hrange : r < start ∨ stop < r
      · simp only [if_pos hrange]; exact hm
      · simp only [if_neg hrange]
        exact alistAppendEvent_keys_nodup m r e hm

theorem partitionRun_keys_nodup :
    ∀ (events : List Event) (start stop : Int) (m : List (Int × List Event)),
      (m.map Prod.fst).Nodup → ((partitionRun start stop events m).map Prod.fst).Nodup := by
  intro events
  induction events with
  | nil => intro start stop m hm; exact hm
  | cons e rest ih =>
    intro start stop m hm
    exact ih start stop _ (partitionStep_keys_nodup start stop m e hm)

theorem fillLoop_keys_nodup :
    ∀ (rng : List Int) (fetch : Int → List Event) (m : List (Int × List Event)),
      (m.map Prod.fst).Nodup → (((fillLoop fetch rng m).1).map Prod.fst).Nodup := by
  intro rng
  induction rng with
  | nil => intro fetch m hm; exact hm
  | cons r rest ih =>
    intro fetch m hm
    by_cases ht : roundTruthy m r = true
    · simp only [fillLoop, if_pos ht]
      exact ih fetch m hm
    · simp only [fillLoop, if_neg ht]
      by_cases hev : (fetch r).isEmpty = true
      · simp only [if_pos hev]
        exact ih fetch m hm
      · simp only [if_neg hev]
        exact ih fetch _ (alistSet_keys_nodup m r (fetch r) hm)

theorem insertAsc_perm : ∀ (l : List Int) (x : Int), List.Perm (insertAsc x l) (x :: l) := by
  intro l
  induction l with
  | nil => intro x; rfl
  | cons y ys ih =>
    intro x
    by_cases h : x ≤ y
    · simp [insertAsc, h]
    · simp only [insertAsc, if_neg h]
      exact ((ih x).cons y).trans (List.Perm.swap x y ys)

theorem sortAsc_perm : ∀ (l : List Int), List.Perm (sortAsc l) l := by
  intro l
  induction l with
  | nil => rfl
  | cons x xs ih =>
    exact (insertAsc_perm (sortAsc xs) x).trans (ih.cons x)

theorem insertAsc_sorted :
    ∀ (l : List Int) (x : Int), l.Pairwise (· ≤ ·) → (insertAsc x l).Pairwise (· ≤ ·) := by
  intro l
  induction l with
  | nil => intro x _; simp [insertAsc]
  | cons y ys ih =>
    intro x hl
    rw [List.pairwise_cons] at hl
    by_cases h : x ≤ y
    · simp only [insertAsc, if_pos h, List.pairwise_cons]
      refine ⟨?_, hl⟩
      intro z hz
      rcases List.mem_cons.mp hz with rfl | hz'
      · exact h
      · exact le_trans h (hl.1 z hz')
    · simp only [insertAsc, if_neg h, List.pairwise_cons]
      refine ⟨?_, ih x hl.2⟩
      intro z hz
      have hz2 := (insertAsc_perm ys x).mem_iff.mp hz
      rcases List.mem_cons.mp hz2 with rfl | hz'
      · exact le_of_not_le h
      · exact hl.1 z hz'

theorem sortAsc_sorted : ∀ (l : List Int), (sortAsc l).Pairwise (· ≤ ·) := by
  intro l
  induction l with
  | nil => simp [sortAsc]
  | cons x xs ih => exact insertAsc_sorted (sortAsc xs) x ih

theorem sortAsc_strict_of_nodup :
    ∀ (l : List Int), l.Nodup → (sortAsc l).Pairwise (· < ·) := by
  intro l hl
  have hn : (sortAsc l).Nodup := ((sortAsc_perm l).nodup_iff).mpr hl
  exact ((sortAsc_sorted l).and hn).imp (fun h => lt_of_le_of_ne h.1 h.2)

theorem alistAppendEvent_tagged :
    ∀ (m : List (Int × List Event)) (r : Int) (e : Event),
      bucketsRoundTagged m → f1RoundNumber e = some r → r ≠ 0 →
      bucketsRoundTagged (alistAppendEvent m r e) := by
  intro m
  induction m with
  | nil =>
    intro r e _ he h0 p hp
    simp only [alistAppendEvent, List.mem_singleton] at hp
    subst hp
    refine ⟨h0, ?_⟩
    intro ev hev
    simp only [List.mem_singleton] at hev
    subst hev
    exact he
  | cons q rest ih =>
    intro r e hm he h0 p hp
    obtain ⟨k, evs⟩ := q
    by_cases hk : k = r
    · simp only [alistAppendEvent, if_pos hk] at hp
      rcases List.mem_cons.mp hp with rfl | hp'
      · have hq := hm (k, evs) (List.mem_cons_self _ _)
        refine ⟨hq.1, ?_⟩
        intro ev hev
        rcases List.mem_append.mp hev with hev' | hev'
        · exact hq.2 ev hev'
        · simp only [List.mem_singleton] at hev'
          subst hev'
          rw [he, hk]
      · exact hm p (List.mem_cons_of_mem _ hp')
    · simp only [alistAppendEvent, if_neg hk] at hp
      rcases List.mem_cons.mp hp with rfl | hp'
      · exact hm (k, evs) (List.mem_cons_self _ _)
      · exact ih r e (fun q hq => hm q (List.mem_cons_of_mem _ hq)) he h0 p hp'

theorem partitionStep_tagged :
    ∀ (start stop : Int) (m : List (Int × List Event)) (e : Event),
      bucketsRoundTagged m → bucketsRoundTagged (partitionStep start stop m e) := by
  intro start stop m e hm
  unfold partitionStep
  cases hr : f1RoundNumber e with
  | none => exact hm
  | some r =>
    by_cases h0 : r = 0
    · simp only [if_pos h0]; exact hm
    · simp only [if_neg h0]
      by_cases hrange : r < start ∨ stop < r
      · simp only [if_pos hrange]; exact hm
      · simp only [if_neg hrange]
        exact alistAppendEvent_tagged m r e hm hr h0

theorem partitionRun_tagged :
    ∀ (events : List Event) (start stop : Int) (m : List (Int × List Event)),
      bucketsRoundTagged m → bucketsRoundTagged (partitionRun start stop events m) := by
  intro events
  induction events with
  | nil => intro start stop m hm; exact hm
  | cons e rest ih =>
    intro start stop m hm
    exact ih start stop _ (partitionStep_tagged start stop m e hm)

theorem partitionByRound_tagged :
    ∀ (bulk : List Event) (start stop : Int),
      bucketsRoundTagged (partitionByRound bulk start stop) := by
  intro bulk start stop
  exact partitionRun_tagged bulk start stop [] (fun p hp => absurd hp (List.not_mem_nil p))

theorem assembleRounds_fst_wf :
    ∀ (bulk : List Event) (start stop : Int) (skip : Bool) (fetch : Int → List Event),
      roundsWellFormed start stop (assembleRounds bulk start stop skip fetch).1 := by
  intro bulk start stop skip fetch
  by_cases hc : skip = false ∧ start ≤ stop
  · have h1 : assembleRounds bulk start stop skip fetch
        = fillLoop fetch (intRangeIncl start stop) (partitionByRound bulk start stop) := by
      show (if skip = false ∧ start ≤ stop then
              fillLoop fetch (intRangeIncl start stop) (partitionByRound bulk start stop)
            else (partitionByRound bulk start stop, 0))
          = fillLoop fetch (intRangeIncl start stop) (partitionByRound bulk start stop)
      rw [if_pos hc]
    rw [h1]
    exact fillLoop_wf (intRangeIncl start stop) fetch _ start stop
      (partitionByRound_wf bulk start stop)
      (fun r hr => mem_intRangeIncl start stop r hr)
  · have h1 : assembleRounds bulk start stop skip fetch = (partitionByRound bulk start stop, 0) := by
      show (if skip = false ∧ start ≤ stop then
              fillLoop fetch (intRangeIncl start stop) (partitionByRound bulk start stop)
            else (partitionByRound bulk start stop, 0))
          = (partitionByRound bulk start stop, 0)
      rw [if_neg hc]
    rw [h1]
    exact partitionByRound_wf bulk start stop

theorem assembleRounds_fst_keys_nodup :
    ∀ (bulk : List Event) (start stop : Int) (skip : Bool) (fetch : Int → List Event),
      (((assembleRounds bulk start stop skip fetch).1).map Prod.fst).Nodup := by
  intro bulk start stop skip fetch
  have hp : ((partitionByRound bulk start stop).map Prod.fst).Nodup :=
    partitionRun_keys_nodup bulk start stop [] (by simp)
  by_cases hc : skip = false ∧ start ≤ stop
  · have h1 : assembleRounds bulk start stop skip fetch
        = fillLoop fetch (intRangeIncl start stop) (partitionByRound bulk start stop) := by
      show (if skip = false ∧ start ≤ stop then
              fillLoop fetch (intRangeIncl start stop) (partitionByRound bulk start stop)
            else (partitionByRound bulk start stop, 0))
          = fillLoop fetch (intRangeIncl start stop) (partitionByRound bulk start stop)
      rw [if_pos hc]
    rw [h1]
    exact fillLoop_keys_nodup (intRangeIncl start stop) fetch _ hp
  · have h1 : assembleRounds bulk start stop skip fetch = (partitionByRound bulk start stop, 0) := by
      show (if skip = false ∧ start ≤ stop then
              fillLoop fetch (intRangeIncl start stop) (partitionByRound bulk start stop)
            else (partitionByRound bulk start stop, 0))
          = (partitionByRound bulk start stop, 0)
      rw [if_neg hc]
    rw [h1]
    exact hp

/-- C2: the Round Assembler (bulk partition plus matchweek fill, the fetch
abstracted as an oracle) only ever holds rounds inside `[start, stop]`, each
with at least one event; downstream iteration (`sorted(events_by_round)`)
visits the round numbers in strictly ascending order; and the bulk partition
tags every kept event with its own parsed round number, never 0 — events
with round 0 or a non-parseable round are silently dropped. -/
theorem c2_round_assembler_invariants :
    ∀ (bulk : List Event) (start stop : Int) (skip : Bool) (fetch : Int → List Event),
      roundsWellFormed start stop (assembleRounds bulk start stop skip fetch).1
      ∧ ((sortedRounds (assembleRounds bulk start stop skip fetch).1).Pairwise (· < ·))
      ∧ bucketsRoundTagged (partitionByRound bulk start stop) := by
  intro bulk start stop skip fetch
  refine ⟨assembleRounds_fst_wf bulk start stop skip fetch, ?_,
    partitionByRound_tagged bulk start stop⟩
  exact sortAsc_strict_of_nodup _ (assembleRounds_fst_keys_nodup bulk start stop skip fetch)

theorem pairLe_refl : ∀ a : Int × Int, pairLe a a = true := by
  intro a
  simp [pairLe]

theorem pairLt_imp_le : ∀ a b : Int × Int, pairLt a b = true → pairLe a b = true := by
  intro a b h
  simp only [pairLt, Bool.or_eq_true, Bool.and_eq_true, decide_eq_true_eq] at h
  simp only [pairLe, Bool.or_eq_true, Bool.and_eq_true, decide_eq_true_eq]
  omega

theorem pairLt_false_le : ∀ a b : Int × Int, pairLt a b = false → pairLe b a = true := by
  intro a b h
  simp only [pairLt, Bool.or_eq_false_iff, Bool.and_eq_false_iff,
    decide_eq_false_iff_not] at h
  simp only [pairLe, Bool.or_eq_true, Bool.and_eq_true, decide_eq_true_eq]
  rcases h with ⟨h1, h2 | h2⟩ <;> omega

theorem pairLe_trans :
    ∀ a b c : Int × Int, pairLe a b = true → pairLe b c = true → pairLe a c = true := by
  intro a b c h1 h2
  simp only [pairLe, Bool.or_eq_true, Bool.and_eq_true, decide_eq_true_eq] at h1 h2 ⊢
  omega

theorem pyMinBy_spec (key : Event → Int × Int) :
    ∀ (l : List Event) (best : Event),
      (pyMinBy key best l = best ∨ pyMinBy key best l ∈ l)
      ∧ pairLe (key (pyMinBy key best l)) (key best) = true
      ∧ ∀ x ∈ l, pairLe (key (pyMinBy key best l)) (key x) = true := by
  intro l
  induction l with
  | nil =>
    intro best
    refine ⟨Or.inl rfl, pairLe_refl _, ?_⟩
    intro x hx
    cases hx
  | cons e rest ih =>
    intro best
    by_cases h : pairLt (key e) (key best) = true
    · simp only [pyMinBy, h, if_true]
      obtain ⟨hmem, hle, hall⟩ := ih e
      have heb : pairLe (key e) (key best) = true := pairLt_imp_le _ _ h
      refine ⟨?_, pairLe_trans _ _ _ hle heb, ?_⟩
      · rcases hmem with h' | h'
        · exact Or.inr (by rw [h']; exact List.mem_cons_self _ _)
        · exact Or.inr (List.mem_cons_of_mem _ h')
      · intro x hx
        rcases List.mem_cons.mp hx with rfl | hx'
        · exact hle
        · exact hall x hx'
    · have hf : pairLt (key e) (key best) = false := eq_false_of_ne_true h
      simp only [pyMinBy, hf, Bool.false_eq_true, if_false]
      obtain ⟨hmem, hle, hall⟩ := ih best
      have hbe : pairLe (key best) (key e) = true := pairLt_false_le _ _ hf
      refine ⟨?_, hle, ?_⟩
      · rcases hmem with h' | h'
        · exact Or.inl h'
        · exact Or.inr (List.mem_cons_of_mem _ h')
      · intro x hx
        rcases List.mem_cons.mp hx with rfl | hx'
        · exact pairLe_trans _ _ _ hle hbe
        · exact hall x hx'

theorem select_primary_spec :
    ∀ (today : Int) (f : Event) (fs : List Event),
      _select_primary_event today (f :: fs) = some (pyMinBy (priorityKey today) f fs)
      ∧ pyMinBy (priorityKey today) f fs ∈ f :: fs
      ∧ ∀ x ∈ f :: fs,
          pairLe (priorityKey today (pyMinBy (priorityKey today) f fs))
            (priorityKey today x) = true := by
  intro today f fs
  obtain ⟨hmem, hle, hall⟩ := pyMinBy_spec (priorityKey today) fs f
  refine ⟨rfl, ?_, ?_⟩
  · rcases hmem with h | h
    · rw [h]; exact List.mem_cons_self _ _
    · exact List.mem_cons_of_mem _ h
  · intro x hx
    rcases List.mem_cons.mp hx with rfl | hx'
    · exact hle
    · exact hall x hx'

theorem alistGet_mem {κ α : Type} [DecidableEq κ] :
    ∀ (m : List (κ × α)) (k : κ) (v : α), alistGet m k = some v → (k, v) ∈ m := by
  intro m
  induction m with
  | nil => intro k v h; simp [alistGet] at h
  | cons q rest ih =>
    intro k v h
    obtain ⟨k0, v0⟩ := q
    by_cases hk : k0 = k
    · subst hk
      simp only [alistGet, if_pos rfl] at h
      injection h with h
      subst h
      exact List.mem_cons_self _ _
    · simp only [alistGet, if_neg hk] at h
      exact List.mem_cons_of_mem _ (ih k v h)

theorem alistSetdefault_mem_sub {κ α : Type} [DecidableEq κ] :
    ∀ (m : List (κ × α)) (k0 : κ) (v0 : α) (p : κ × α),
      p ∈ alistSetdefault m k0 v0 → p ∈ m ∨ p = (k0, v0) := by
  intro m k0 v0 p hp
  rcases hg : alistGet m k0 with _ | v
  · simp only [alistSetdefault, hg] at hp
    rcases List.mem_append.mp hp with h | h
    · exact Or.inl h
    · simp only [List.mem_singleton] at h
      exact Or.inr h
  · simp only [alistSetdefault, hg] at hp
    exact Or.inl hp

theorem _match_session_event_mem :
    ∀ (events : List Event) (keywords : List String) (e : Event),
      _match_session_event events keywords = some e → e ∈ events := by
  intro events
  induction events with
  | nil => intro kws e h; simp [_match_session_event] at h
  | cons a rest ih =>
    intro kws e h
    by_cases hm : eventMatchesKeywords kws a = true
    · simp only [_match_session_event, hm, if_true] at h
      injection h with h
      subst h
      exact List.mem_cons_self _ _
    · simp only [_match_session_event, hm, Bool.false_eq_true, if_false] at h
      exact List.mem_cons_of_mem _ (ih kws e h)

theorem buildMatchedEvents_mem :
    ∀ (fixtures : List Event) (plan : List SessionSlot) (m0 : List (String × Event))
      (p : String × Event),
      p ∈ buildMatchedEvents fixtures plan m0 → p ∈ m0 ∨ p.2 ∈ fixtures := by
  intro fixtures plan
  induction plan with
  | nil => intro m0 p hp; exact Or.inl hp
  | cons slot rest ih =>
    intro m0 p hp
    simp only [buildMatchedEvents] at hp
    rcases hm : _match_session_event fixtures slot.keywords with _ | ev
    · rw [hm] at hp
      exact ih m0 p hp
    · rw [hm] at hp
      by_cases ht : eventTruthy ev = true
      · simp only [ht, if_true] at hp
        rcases ih _ p hp with h | h
        · rcases alistSetdefault_mem_sub m0 slot.slug ev p h with h' | h'
          · exact Or.inl h'
          · subst h'
            exact Or.inr (_match_session_event_mem fixtures slot.keywords ev hm)
        · exact Or.inr h
      · have hf : eventTruthy ev = false := eq_false_of_ne_true ht
        simp only [hf, Bool.false_eq_true, if_false] at hp
        exact ih m0 p hp

theorem fallbackScan_eq_firstHit :
    ∀ (m : List (String × Event)) (slugs : List String),
      (∀ s e, alistGet m s = some e → eventTruthy e = true) →
      fallbackScan m slugs = firstFallbackHit m slugs := by
  intro m slugs hv
  induction slugs with
  | nil => rfl
  | cons s rest ih =>
    rcases hg : alistGet m s with _ | e
    · simp only [fallbackScan, firstFallbackHit, hg]
      exact ih
    · simp only [fallbackScan, firstFallbackHit, hg, hv s e hg, if_true]

/-- C6: for a slot with no direct match, the episode's source event is the
first fallback slug's matched event; when no fallback slug matched either it
is the round's primary event — a member of the round minimizing
`(priority class, event date)` lexicographically — and for a round with no
events at all it is the empty placeholder. Events are assumed to be nonempty
records, as every feed event is. -/
theorem c6_fallback_cascade :
    ∀ (today : Int) (fixtures : List Event) (plan : List SessionSlot) (slot : SessionSlot),
      (∀ e ∈ fixtures, eventTruthy e = true) →
      alistGet (matchedEvents fixtures plan) slot.slug = none →
      (∀ e, firstFallbackHit (matchedEvents fixtures plan) slot.fallback_slugs = some e →
          episodeSource today fixtures plan slot = e)
      ∧ (firstFallbackHit (matchedEvents fixtures plan) slot.fallback_slugs = none →
          (fixtures = [] → episodeSource today fixtures plan slot = emptyEvent)
          ∧ (fixtures ≠ [] →
              _select_primary_event today fixtures
                  = some (episodeSource today fixtures plan slot)
              ∧ episodeSource today fixtures plan slot ∈ fixtures
              ∧ ∀ x ∈ fixtures,
                  pairLe (priorityKey today (episodeSource today fixtures plan slot))
                    (priorityKey today x) = true)) := by
  intro today fixtures plan slot hok hdirect
  have hv : ∀ (s : String) (e : Event),
      alistGet (matchedEvents fixtures plan) s = some e → eventTruthy e = true := by
    intro s e hget
    have hmem := alistGet_mem _ s e hget
    rcases buildMatchedEvents_mem fixtures plan [] (s, e) hmem with h | h
    · cases h
    · exact hok e h
  have hscan := fallbackScan_eq_firstHit (matchedEvents fixtures plan) slot.fallback_slugs hv
  constructor
  · intro e he
    simp only [episodeSource, resolveSourceEvent, hdirect, hscan, he]
  · intro hnone
    have hsrc : episodeSource today fixtures plan slot
        = pyOrEvent (_select_primary_event today fixtures)
            (artworkEvent (_select_primary_event today fixtures) fixtures) := by
      simp only [episodeSource, resolveSourceEvent, hdirect, hscan, hnone]
    constructor
    · intro hemp
      subst hemp
      rw [hsrc]
      rfl
    · intro hne
      match fixtures, hne with
      | f :: fs, _ =>
        obtain ⟨hsel, hmem, hall⟩ := select_primary_spec today f fs
        have htr : eventTruthy (pyMinBy (priorityKey today) f fs) = true :=
          hok _ hmem
        have hsrc2 : episodeSource today (f :: fs) plan slot
            = pyMinBy (priorityKey today) f fs := by
          rw [hsrc]
          simp only [_select_primary_event, pyOrEvent, htr, if_true]
        rw [hsrc2]
        exact ⟨hsel, hmem, hall⟩

theorem c6_witness :
    (∀ e ∈ [sampleQualifyingEvent], eventTruthy e = true)
    ∧ alistGet (matchedEvents [sampleQualifyingEvent] []) sampleUnmatchedSlot.slug = none
    ∧ ((∀ e, firstFallbackHit (matchedEvents [sampleQualifyingEvent] [])
            sampleUnmatchedSlot.fallback_slugs = some e →
          episodeSource 0 [sampleQualifyingEvent] [] sampleUnmatchedSlot = e)
      ∧ (firstFallbackHit (matchedEvents [sampleQualifyingEvent] [])
            sampleUnmatchedSlot.fallback_slugs = none →
          ([sampleQualifyingEvent] = ([] : List Event) →
            episodeSource 0 [sampleQualifyingEvent] [] sampleUnmatchedSlot = emptyEvent)
          ∧ ([sampleQualifyingEvent] ≠ ([] : List Event) →
              _select_primary_event 0 [sampleQualifyingEvent]
                  = some (episodeSource 0 [sampleQualifyingEvent] [] sampleUnmatchedSlot)
              ∧ episodeSource 0 [sampleQualifyingEvent] [] sampleUnmatchedSlot
                  ∈ [sampleQualifyingEvent]
              ∧ ∀ x ∈ [sampleQualifyingEvent],
                  pairLe
                    (priorityKey 0 (episodeSource 0 [sampleQualifyingEvent] [] sampleUnmatchedSlot))
                    (priorityKey 0 x) = true))) :=
  ⟨by decide, by decide,
    c6_fallback_cascade 0 [sampleQualifyingEvent] [] sampleUnmatchedSlot
      (by decide) (by decide)⟩

/-- C8 counterexample: the cleaner is not idempotent. With an empty raw title
it returns the fallback verbatim, uncleaned; cleaning that output again
strips the session suffix, so the second application differs from the first. -/
theorem c8_counterexample :
    _clean_round_title (some "") "Monza Qualifying" = "Monza Qualifying"
    ∧ _clean_round_title (some (_clean_round_title (some "") "Monza Qualifying"))
        "Monza Qualifying" = "Monza"
    ∧ _clean_round_title (some (_clean_round_title (some "") "Monza Qualifying"))
        "Monza Qualifying"
      ≠ _clean_round_title (some "") "Monza Qualifying" :=
  ⟨by decide, by decide, by decide⟩

/-- C8 amended: the cleaner is idempotent exactly on titles that are already
fully cleaned — nonempty, whitespace-stripped and fixed by both the one-shot
sprint pre-pass and the session-suffix pass. (In general a second application
can strip further: the fallback is returned verbatim, and a sprint-style
suffix such as "Sprint Race" can survive the loop yet be stripped by the
pre-pass of a second run.) -/
theorem c8_amended_idempotent_on_cleaned :
    ∀ (s fallback : String),
      s ≠ "" →
      pyStripWs s.data = s.data →
      sprintPass s.data = s.data →
      suffixPass s.data = s.data →
      _clean_round_title (some s) fallback = s := by
  intro s fallback h1 h2 h3 h4
  have hd : s.data ≠ [] := by
    intro h
    apply h1
    cases s with
    | mk d => subst h; rfl
  simp only [_clean_round_title]
  rw [if_neg h1, h2, h3]
  have hloop : cleanLoop (s.data.length + 1) s.data = s.data := by
    simp only [cleanLoop, h4, if_pos]
  rw [hloop, if_neg hd]

theorem c8_witness :
    ("Monza" : String) ≠ ""
    ∧ pyStripWs "Monza".data = "Monza".data
    ∧ sprintPass "Monza".data = "Monza".data
    ∧ suffixPass "Monza".data = "Monza".data
    ∧ _clean_round_title (some "Monza") "fallback title" = "Monza" :=
  ⟨by decide, by decide, by decide, by decide,
    c8_amended_idempotent_on_cleaned "Monza" "fallback title"
      (by decide) (by decide) (by decide) (by decide)⟩

theorem counterAdd_ne_nil : ∀ (m : List (String × Nat)) (k : String), counterAdd m k ≠ [] := by
  intro m k
  cases m with
  | nil => simp [counterAdd]
  | cons q rest =>
    obtain ⟨k0, n⟩ := q
    by_cases hk : k0 = k
    · simp [counterAdd, hk]
    · simp [counterAdd, hk]

theorem counterAdd_mem_sub :
    ∀ (m : List (String × Nat)) (k : String) (q : String × Nat),
      q ∈ counterAdd m k → q ∈ m ∨ q.1 = k := by
  intro m
  induction m with
  | nil =>
    intro k q hq
    simp only [counterAdd, List.mem_singleton] at hq
    subst hq
    exact Or.inr rfl
  | cons p rest ih =>
    intro k q hq
    obtain ⟨k0, n⟩ := p
    by_cases hk : k0 = k
    · simp only [counterAdd, if_pos hk] at hq
      rcases List.mem_cons.mp hq with rfl | hq'
      · exact Or.inr hk
      · exact Or.inl (List.mem_cons_of_mem _ hq')
    · simp only [counterAdd, if_neg hk] at hq
      rcases List.mem_cons.mp hq with rfl | hq'
      · exact Or.inl (List.mem_cons_self _ _)
      · rcases ih k q hq' with h | h
        · exact Or.inl (List.mem_cons_of_mem _ h)
        · exact Or.inr h

theorem counterAdd_keys_sub :
    ∀ (m : List (String × Nat)) (k : String) (x : String),
      x ∈ (counterAdd m k).map Prod.fst → x ∈ m.map Prod.fst ∨ x = k := by
  intro m k x hx
  simp only [List.mem_map] at hx
  obtain ⟨q, hq, rfl⟩ := hx
  rcases counterAdd_mem_sub m k q hq with h | h
  · exact Or.inl (List.mem_map_of_mem _ h)
  · exact Or.inr h

theorem counterAdd_keys_nodup :
    ∀ (m : List (String × Nat)) (k : String),
      (m.map Prod.fst).Nodup → ((counterAdd m k).map Prod.fst).Nodup := by
  intro m
  induction m with
  | nil => intro k _; simp [counterAdd]
  | cons p rest ih =>
    intro k hm
    obtain ⟨k0, n⟩ := p
    simp only [List.map_cons, List.nodup_cons] at hm
    by_cases hk : k0 = k
    · simp only [counterAdd, if_pos hk, List.map_cons, List.nodup_cons]
      exact hm
    · simp only [counterAdd, if_neg hk, List.map_cons, List.nodup_cons]
      refine ⟨?_, ih k hm.2⟩
      intro hx
      rcases counterAdd_keys_sub rest k k0 hx with h | h
      · exact hm.1 h
      · exact hk h

theorem countOf_counterAdd :
    ∀ (m : List (String × Nat)) (k k' : String),
      countOf (counterAdd m k) k' = countOf m k' + (if k' = k then 1 else 0) := by
  intro m
  induction m with
  | nil =>
    intro k k'
    by_cases h : k = k'
    · subst h
      simp [counterAdd, countOf, alistGet]
    · simp [counterAdd, countOf, alistGet, h, Ne.symm h]
  | cons p rest ih =>
    intro k k'
    obtain ⟨k0, n⟩ := p
    by_cases hk : k0 = k
    · subst hk
      by_cases h' : k0 = k'
      · subst h'
        simp [counterAdd, countOf, alistGet]
      · simp [counterAdd, countOf, alistGet, h', Ne.symm h']
    · by_cases h' : k0 = k'
      · subst h'
        simp [counterAdd, countOf, alistGet, hk, Ne.symm hk]
      · simp only [counterAdd, if_neg hk, countOf, alistGet, if_neg h']
        exact ih k k'

theorem mem_countOf :
    ∀ (m : List (String × Nat)), (m.map Prod.fst).Nodup →
      ∀ q ∈ m, countOf m q.1 = q.2 := by
  intro m
  induction m with
  | nil => intro _ q hq; cases hq
  | cons p rest ih =>
    intro hm q hq
    obtain ⟨k0, n⟩ := p
    simp only [List.map_cons, List.nodup_cons] at hm
    rcases List.mem_cons.mp hq with rfl | hq'
    · simp [countOf, alistGet]
    · have hk : ¬k0 = q.1 := by
        intro h
        exact hm.1 (h ▸ List.mem_map_of_mem Prod.fst hq')
      simp only [countOf, alistGet, if_neg hk]
      exact ih hm.2 q hq'

theorem trimmedCountsRun_keys_nodup :
    ∀ (ts : List String) (m : List (String × Nat)),
      (m.map Prod.fst).Nodup → ((trimmedCountsRun ts m).map Prod.fst).Nodup := by
  intro ts
  induction ts with
  | nil => intro m hm; exact hm
  | cons t rest ih =>
    intro m hm
    by_cases hs : _strip_session_descriptor t = ""
    · simp only [trimmedCountsRun, if_pos hs]
      exact ih m hm
    · simp only [trimmedCountsRun, if_neg hs]
      exact ih _ (counterAdd_keys_nodup m _ hm)

theorem trimmedCountsRun_mem_sub :
    ∀ (ts : List String) (m : List (String × Nat)) (q : String × Nat),
      q ∈ trimmedCountsRun ts m →
      q ∈ m ∨ (q.1 ≠ "" ∧ ∃ t ∈ ts, _strip_session_descriptor t = q.1) := by
  intro ts
  induction ts with
  | nil => intro m q hq; exact Or.inl hq
  | cons t rest ih =>
    intro m q hq
    by_cases hs : _strip_session_descriptor t = ""
    · simp only [trimmedCountsRun, if_pos hs] at hq
      rcases ih m q hq with h | ⟨h1, t', ht', h2⟩
      · exact Or.inl h
      · exact Or.inr ⟨h1, t', List.mem_cons_of_mem _ ht', h2⟩
    · simp only [trimmedCountsRun, if_neg hs] at hq
      rcases ih _ q hq with h | ⟨h1, t', ht', h2⟩
      · rcases counterAdd_mem_sub m _ q h with h' | h'
        · exact Or.inl h'
        · exact Or.inr ⟨h' ▸ hs, t, List.mem_cons_self _ _, h'.symm⟩
      · exact Or.inr ⟨h1, t', List.mem_cons_of_mem _ ht', h2⟩

theorem countOf_trimmedCountsRun :
    ∀ (ts : List String) (m : List (String × Nat)) (k : String), k ≠ "" →
      countOf (trimmedCountsRun ts m) k
        = countOf m k + (ts.filter (fun t => _strip_session_descriptor t = k)).length := by
  intro ts
  induction ts with
  | nil => intro m k _; simp [trimmedCountsRun]
  | cons t rest ih =>
    intro m k hk
    by_cases hs : _strip_session_descriptor t = ""
    · have hne : ¬(_strip_session_descriptor t = k) := by
        rw [hs]; exact fun h => hk h.symm
      simp only [trimmedCountsRun, if_pos hs]
      rw [ih m k hk]
      simp [List.filter_cons, hne]
    · simp only [trimmedCountsRun, if_neg hs]
      rw [ih _ k hk, countOf_counterAdd]
      by_cases he : _strip_session_descriptor t = k
      · simp [List.filter_cons, he]
        omega
      · have : ¬(k = _strip_session_descriptor t) := fun h => he h.symm
        simp [List.filter_cons, he, this]

theorem trimmedCountsRun_nil_all :
    ∀ (ts : List String) (m : List (String × Nat)),
      trimmedCountsRun ts m = [] → m = [] ∧ ∀ t ∈ ts, _strip_session_descriptor t = "" := by
  intro ts
  induction ts with
  | nil => intro m h; exact ⟨h, by simp⟩
  | cons t rest ih =>
    intro m h
    by_cases hs : _strip_session_descriptor t = ""
    · simp only [trimmedCountsRun, if_pos hs] at h
      obtain ⟨h1, h2⟩ := ih m h
      refine ⟨h1, ?_⟩
      intro t' ht'
      rcases List.mem_cons.mp ht' with rfl | ht''
      · exact hs
      · exact h2 t' ht''
    · simp only [trimmedCountsRun, if_neg hs] at h
      obtain ⟨h1, -⟩ := ih _ h
      exact absurd h1 (counterAdd_ne_nil m _)

theorem pairLeN_refl : ∀ a : Nat × Nat, pairLeN a a = true := by
  intro a
  simp [pairLeN]

theorem pairGtN_imp_le : ∀ a b : Nat × Nat, pairGtN a b = true → pairLeN b a = true := by
  intro a b h
  simp only [pairGtN, Bool.or_eq_true, Bool.and_eq_true, decide_eq_true_eq] at h
  simp only [pairLeN, Bool.or_eq_true, Bool.and_eq_true, decide_eq_true_eq]
  omega

theorem pairGtN_false_le : ∀ a b : Nat × Nat, pairGtN a b = false → pairLeN a b = true := by
  intro a b h
  simp only [pairGtN, Bool.or_eq_false_iff, Bool.and_eq_false_iff,
    decide_eq_false_iff_not] at h
  simp only [pairLeN, Bool.or_eq_true, Bool.and_eq_true, decide_eq_true_eq]
  rcases h with ⟨h1, h2 | h2⟩ <;> omega

theorem pairLeN_trans :
    ∀ a b c : Nat × Nat, pairLeN a b = true → pairLeN b c = true → pairLeN a c = true := by
  intro a b c h1 h2
  simp only [pairLeN, Bool.or_eq_true, Bool.and_eq_true, decide_eq_true_eq] at h1 h2 ⊢
  omega

theorem pyMaxCounter_spec :
    ∀ (l : List (String × Nat)) (best : String × Nat),
      (pyMaxCounter best l = best ∨ pyMaxCounter best l ∈ l)
      ∧ pairLeN (counterKey best) (counterKey (pyMaxCounter best l)) = true
      ∧ ∀ x ∈ l, pairLeN (counterKey x) (counterKey (pyMaxCounter best l)) = true := by
  intro l
  induction l with
  | nil =>
    intro best
    refine ⟨Or.inl rfl, pairLeN_refl _, ?_⟩
    intro x hx
    cases hx
  | cons e rest ih =>
    intro best
    by_cases h : pairGtN (counterKey e) (counterKey best) = true
    · simp only [pyMaxCounter, h, if_true]
      obtain ⟨hmem, hle, hall⟩ := ih e
      have hbe : pairLeN (counterKey best) (counterKey e) = true := pairGtN_imp_le _ _ h
      refine ⟨?_, pairLeN_trans _ _ _ hbe hle, ?_⟩
      · rcases hmem with h' | h'
        · exact Or.inr (by rw [h']; exact List.mem_cons_self _ _)
        · exact Or.inr (List.mem_cons_of_mem _ h')
      · intro x hx
        rcases List.mem_cons.mp hx with rfl | hx'
        · exact hle
        · exact hall x hx'
    · have hf : pairGtN (counterKey e) (counterKey best) = false := eq_false_of_ne_true h
      simp only [pyMaxCounter, hf, Bool.false_eq_true, if_false]
      obtain ⟨hmem, hle, hall⟩ := ih best
      have heb : pairLeN (counterKey e) (counterKey best) = true := pairGtN_false_le _ _ hf
      refine ⟨?_, hle, ?_⟩
      · rcases hmem with h' | h'
        · exact Or.inl h'
        · exact Or.inr (List.mem_cons_of_mem _ h')
      · intro x hx
        rcases List.mem_cons.mp hx with rfl | hx'
        · exact pairLeN_trans _ _ _ heb hle
        · exact hall x hx'

/-- C9 counterexample: when the stripped-name vote and both common word
sequences are empty, the derived base name is the first title with its
surrounding whitespace removed, not the first title verbatim. -/
theorem c9_counterexample :
    derivedBaseName [" Alpha Beta ", "Gamma Delta"] = "Alpha Beta"
    ∧ derivedBaseName [" Alpha Beta ", "Gamma Delta"] ≠ " Alpha Beta " :=
  ⟨by decide, by decide⟩

/-- C9 amended: for a nonempty list of session titles the base name follows
the fallback chain of `_derive_round_title`: when some titles yield a nonempty
stripped name, the winner of the `(count, length)` vote — a counted name whose
count is its frequency among the titles and whose key is maximal under that
lexicographic order; when no title yields a stripped name, the longest common
leading word sequence, else the longest common trailing word sequence, else
the first title stripped of surrounding whitespace (not verbatim). -/
theorem c9_amended_base_name_chain :
    ∀ (titles : List String), titles ≠ [] →
      (∀ c cs, trimmedCounts titles = c :: cs →
          derivedBaseName titles = (pyMaxCounter c cs).1
          ∧ pyMaxCounter c cs ∈ c :: cs
          ∧ (∀ q ∈ c :: cs,
              pairLeN (counterKey q) (counterKey (pyMaxCounter c cs)) = true)
          ∧ (∀ q ∈ c :: cs, q.1 ≠ ""
              ∧ q.2 = (titles.filter
                  (fun t => _strip_session_descriptor t = q.1)).length))
      ∧ (trimmedCounts titles = [] →
          (∀ t ∈ titles, _strip_session_descriptor t = "")
          ∧ (longestCommonLeadingWords titles ≠ "" →
              derivedBaseName titles = longestCommonLeadingWords titles)
          ∧ (longestCommonLeadingWords titles = "" →
              longestCommonTrailingWords titles ≠ "" →
              derivedBaseName titles = longestCommonTrailingWords titles)
          ∧ (longestCommonLeadingWords titles = "" →
              longestCommonTrailingWords titles = "" →
              derivedBaseName titles = pyStripWsStr (titles.headD ""))) := by
  intro titles h
  have hie : titles.isEmpty = false := by
    cases titles with
    | nil => exact absurd rfl h
    | cons a l => rfl
  have hkeys : ∀ q ∈ trimmedCounts titles, q.1 ≠ "" := by
    intro q hq
    rcases trimmedCountsRun_mem_sub titles [] q hq with h' | ⟨h1, -⟩
    · cases h'
    · exact h1
  have hnodup : ((trimmedCounts titles).map Prod.fst).Nodup :=
    trimmedCountsRun_keys_nodup titles [] (by simp)
  constructor
  · intro c cs hc
    obtain ⟨hmem, hle, hall⟩ := pyMaxCounter_spec cs c
    have hmaxmem : pyMaxCounter c cs ∈ c :: cs := by
      rcases hmem with h' | h'
      · rw [h']; exact List.mem_cons_self _ _
      · exact List.mem_cons_of_mem _ h'
    have hb1 : (pyMaxCounter c cs).1 ≠ "" := by
      apply hkeys
      rw [hc]
      exact hmaxmem
    refine ⟨?_, hmaxmem, ?_, ?_⟩
    · simp [derivedBaseName, hie, hc, hb1]
    · intro q hq
      rcases List.mem_cons.mp hq with rfl | hq'
      · exact hle
      · exact hall q hq'
    · intro q hq
      have hqa : q ∈ trimmedCounts titles := by rw [hc]; exact hq
      have hq1 : q.1 ≠ "" := hkeys q hqa
      refine ⟨hq1, ?_⟩
      have h1 : countOf (trimmedCounts titles) q.1 = q.2 := mem_countOf _ hnodup q hqa
      have h2 := countOf_trimmedCountsRun titles [] q.1 hq1
      have h3 : countOf ([] : List (String × Nat)) q.1 = 0 := rfl
      have h4 : trimmedCounts titles = trimmedCountsRun titles [] := rfl
      rw [← h4, h1, h3] at h2
      omega
  · intro hc
    obtain ⟨-, hall⟩ := trimmedCountsRun_nil_all titles [] hc
    refine ⟨hall, ?_, ?_, ?_⟩
    · intro hlead
      simp [derivedBaseName, hie, hc, hlead]
    · intro hlead htrail
      simp [derivedBaseName, hie, hc, hlead, htrail]
    · intro hlead htrail
      simp [derivedBaseName, hie, hc, hlead, htrail]

theorem c9_witness :
    (["NHK Trophy Pairs Short Program", "NHK Trophy Men Free Skating"] : List String) ≠ []
    ∧ trimmedCounts ["NHK Trophy Pairs Short Program", "NHK Trophy Men Free Skating"]
        = [("NHK Trophy", 2)]
    ∧ (derivedBaseName ["NHK Trophy Pairs Short Program", "NHK Trophy Men Free Skating"]
          = (pyMaxCounter ("NHK Trophy", 2) []).1
      ∧ pyMaxCounter ("NHK Trophy", 2) [] ∈ [("NHK Trophy", 2)]
      ∧ (∀ q ∈ [(("NHK Trophy" : String), 2)],
          pairLeN (counterKey q) (counterKey (pyMaxCounter ("NHK Trophy", 2) [])) = true)
      ∧ (∀ q ∈ [(("NHK Trophy" : String), 2)], q.1 ≠ ""
          ∧ q.2 = ((["NHK Trophy Pairs Short Program", "NHK Trophy Men Free Skating"]
              : List String).filter
                (fun t => _strip_session_descriptor t = q.1)).length)) :=
  ⟨by decide, by decide,
    (c9_amended_base_name_chain
      ["NHK Trophy Pairs Short Program", "NHK Trophy Men Free Skating"]
      (by decide)).1 ("NHK Trophy", 2) [] (by decide)⟩
